import Mathlib

/-! # maps-express: tile cacher

A shallow embedding of `src/tile_cacher.cpp` (class `TileCacher`).

* Every public method takes the mutex `mux_` around all of its reads and
  writes of the three containers, so a method is modelled as one atomic
  transition on the cacher state.
* Calls that leave the cacher (`GetImpl`, `SetImpl`, `TouchImpl`, and the
  `SetResult` / `NotifyError` callbacks of a task) are recorded as a list of
  events, in the order in which the method performs them.
* `assert` failures and undefined behaviour are faults: the method returns
  `Except.error` and no successor state.
* `tile_cacher.h` and the class of `tmp_cache_` are not among the sources; the
  two waiter maps are taken to be standard associative containers and the cache
  is modelled from the specification.
-/

namespace TileCacher

/-- A `std::string` key. -/
abbrev Key := String

/-- Identity of a `std::shared_ptr<GetTask>` (the waiter handle). -/
abbrev Handle := Nat

/-- Identity of a `CachedTile` payload; a possibly-null
`std::shared_ptr<CachedTile>` is an `Option CachedTile`. -/
abbrev CachedTile := Nat

/-- A `std::chrono::seconds` count. -/
abbrev Seconds := Nat

/-- The `waiters_vec_t` type, a vector of tasks in `push_back` order. -/
abbrev waiters_vec_t := List Handle

/-- The container type of `get_waiters_` and `set_waiters_`: a finite map from
keys to waiter vectors, `none` standing for `find(key) == end()`. -/
abbrev WaitersMap := Key → Option waiters_vec_t

/-- The map with no entry. -/
def WaitersMap.empty : WaitersMap := fun _ => none

/-- Assignment `m[key] = ws`, also the effect of mutating `itr->second`. -/
def WaitersMap.assign (m : WaitersMap) (key : Key) (ws : waiters_vec_t) : WaitersMap :=
  fun k => if k = key then some ws else m k

/-- Removal `m.erase(itr)` of the entry found at `key`. -/
def WaitersMap.erase (m : WaitersMap) (key : Key) : WaitersMap :=
  fun k => if k = key then none else m k

/-- Association-list lookup, first match wins. -/
def lookup (key : Key) : List (Key × CachedTile) → Option CachedTile
  | [] => none
  | (k, v) :: rest => if k = key then some v else lookup key rest

/-- Association-list removal of every entry stored under `key`. -/
def removeKey (key : Key) : List (Key × CachedTile) → List (Key × CachedTile)
  | [] => []
  | (k, v) :: rest => if k = key then removeKey key rest else (k, v) :: removeKey key rest

/-- Modelled from the spec: the bounded in-memory tier `tmp_cache_`, whose class
is declared outside the given sources. Spec 4.1: a fixed-capacity map with LRU
eviction; `Get(k)` returns the value and promotes the entry to most recently
used, `Set(k, v)` inserts and evicts the least recently used entry on overflow.
`items` is kept most recently used first. -/
structure LruCache where
  capacity : Nat
  items : List (Key × CachedTile)

/-- Modelled from the spec: `Get(k) → Option<V>` (promotes to MRU). -/
def LruCache.Get (c : LruCache) (key : Key) : Option CachedTile × LruCache :=
  match lookup key c.items with
  | some v => (some v, { c with items := (key, v) :: removeKey key c.items })
  | none => (none, c)

/-- Modelled from the spec: `Set(k, v)` (inserts, evicts LRU on overflow). -/
def LruCache.Set (c : LruCache) (key : Key) (v : CachedTile) : LruCache :=
  { c with items := ((key, v) :: removeKey key c.items).take c.capacity }

/-- What a caller of `hot.get(k)` observes. -/
def LruCache.peek (c : LruCache) (key : Key) : Option CachedTile := (c.Get key).1

/-- Calls made by the cacher to the outside, in program order. `NotifyError` is
called without an argument everywhere in `tile_cacher.cpp`. -/
inductive Event where
  | GetImpl (key : Key)
  | SetImpl (key : Key) (cached_tile : CachedTile) (expire_time : Seconds)
  | TouchImpl (key : Key) (expire_time : Seconds)
  | SetResult (task : Handle) (tile : Option CachedTile)
  | NotifyError (task : Handle)
  deriving DecidableEq

/-- Ways a method can fail to return. -/
inductive Fault where
  /-- An `assert(...)` does not hold. -/
  | assertion
  /-- The method performs an operation the C++ standard leaves undefined. -/
  | undefinedBehaviour
  deriving DecidableEq

end TileCacher

/-- The members of `class TileCacher` guarded by `mux_`. -/
structure TileCacher where
  tmp_cache_ : TileCacher.LruCache
  get_waiters_ : TileCacher.WaitersMap
  set_waiters_ : TileCacher.WaitersMap

namespace TileCacher

/-- Constructor `TileCacher(tmp_cache_capacity)`. -/
def init (tmp_cache_capacity : Nat) : TileCacher :=
  { tmp_cache_ := { capacity := tmp_cache_capacity, items := [] }
    get_waiters_ := WaitersMap.empty
    set_waiters_ := WaitersMap.empty }

/-- Result of a method: the next state and the outside calls it made. -/
abbrev Outcome := Except Fault (TileCacher × List Event)

/-- `TileCacher::Get` (tile_cacher.cpp 12-42). -/
def Get (s : TileCacher) (key : Key) (task : Handle) : Outcome :=
  if key = "" then .error .assertion else
  match s.tmp_cache_.Get key with
  | (some tile, cache) =>
    .ok ({ s with tmp_cache_ := cache }, [.SetResult task (some tile)])
  | (none, cache) =>
    match s.set_waiters_ key with
    | some waiters_vec =>
      .ok ({ s with tmp_cache_ := cache
                    set_waiters_ := s.set_waiters_.assign key (waiters_vec ++ [task]) }, [])
    | none =>
      match s.get_waiters_ key with
      | some waiters_vec =>
        .ok ({ s with tmp_cache_ := cache
                      get_waiters_ := s.get_waiters_.assign key (waiters_vec ++ [task]) }, [])
      | none =>
        .ok ({ s with tmp_cache_ := cache
                      get_waiters_ := s.get_waiters_.assign key [task] }, [.GetImpl key])

/-- `TileCacher::Set` (tile_cacher.cpp 44-63). The `SetTask` argument is never
used by the body. When `set_waiters_.find(key)` is `end()`, line 57 still calls
`set_waiters_.erase(end())`, which is undefined. -/
def Set (s : TileCacher) (key : Key) (cached_tile : Option CachedTile)
    (expire_time : Seconds) (_task : Option Handle) : Outcome :=
  if key = "" then .error .assertion else
  match cached_tile with
  | none => .error .assertion
  | some tile =>
    match s.set_waiters_ key with
    | some waiters_vec =>
      .ok ({ s with tmp_cache_ := s.tmp_cache_.Set key tile
                    set_waiters_ := s.set_waiters_.erase key },
           waiters_vec.map (fun get_task => Event.SetResult get_task (some tile))
             ++ [.SetImpl key tile expire_time])
    | none => .error .undefinedBehaviour

/-- `TileCacher::Touch` (tile_cacher.cpp 65-68). -/
def Touch (s : TileCacher) (key : Key) (expire_time : Seconds) : Outcome :=
  if key = "" then .error .assertion else
  .ok (s, [.TouchImpl key expire_time])

/-- The loop of `TileCacher::LockUntilSet` (tile_cacher.cpp 76-82): the
set-waiters map, the flag `locked` and the vector `locked_keys` after visiting
`keys`. -/
def lockLoop (m : WaitersMap) (locked : Bool) (locked_keys : List Key) :
    List Key → WaitersMap × Bool × List Key
  | [] => (m, locked, locked_keys)
  | key :: keys =>
    match m key with
    | none => lockLoop (m.assign key []) true (locked_keys ++ [key]) keys
    | some _ => lockLoop m locked locked_keys keys

/-- `TileCacher::LockUntilSet` (tile_cacher.cpp 70-88). The result is `none`
for `nullptr`, else the keys owned by the new `CacherLock`. -/
def LockUntilSet (s : TileCacher) (keys : List Key) : TileCacher × Option (List Key) :=
  let r := lockLoop s.set_waiters_ false [] keys
  ({ s with set_waiters_ := r.1 }, if r.2.1 then some r.2.2 else none)

/-- `TileCacher::Unlock` (tile_cacher.cpp 90-106). The mutex is taken once for
each key, so `Unlock (key :: keys)` is `Unlock [key]` followed by `Unlock keys`;
the waiters of a key are notified before the next key is looked up. -/
def Unlock (s : TileCacher) : List Key → TileCacher × List Event
  | [] => (s, [])
  | key :: keys =>
    match s.set_waiters_ key with
    | none => Unlock s keys
    | some waiters =>
      let r := Unlock { s with set_waiters_ := s.set_waiters_.erase key } keys
      (r.1, waiters.map Event.NotifyError ++ r.2)

/-- `TileCacher::OnTileRetrieved` (tile_cacher.cpp 108-125). -/
def OnTileRetrieved (s : TileCacher) (key : Key) (cached_tile : Option CachedTile) :
    TileCacher × List Event :=
  match s.get_waiters_ key with
  | none => (s, [])
  | some waiters =>
    ({ s with tmp_cache_ := match cached_tile with
                            | some tile => s.tmp_cache_.Set key tile
                            | none => s.tmp_cache_
              get_waiters_ := s.get_waiters_.erase key },
     waiters.map (fun async_task => Event.SetResult async_task cached_tile))

/-- `TileCacher::OnRetrieveError` (tile_cacher.cpp 127-141). -/
def OnRetrieveError (s : TileCacher) (key : Key) : TileCacher × List Event :=
  match s.get_waiters_ key with
  | none => (s, [])
  | some waiters =>
    ({ s with get_waiters_ := s.get_waiters_.erase key }, waiters.map Event.NotifyError)

/-- One call into the cacher: a public method or a loader callback. -/
inductive Op where
  | Get (key : Key) (task : Handle)
  | Set (key : Key) (cached_tile : Option CachedTile) (expire_time : Seconds)
      (task : Option Handle)
  | Touch (key : Key) (expire_time : Seconds)
  | LockUntilSet (keys : List Key)
  | Unlock (keys : List Key)
  | OnTileRetrieved (key : Key) (cached_tile : Option CachedTile)
  | OnRetrieveError (key : Key)
  deriving DecidableEq

/-- Effect of one call. -/
def step (s : TileCacher) : Op → Outcome
  | .Get key task => Get s key task
  | .Set key cached_tile expire_time task => Set s key cached_tile expire_time task
  | .Touch key expire_time => Touch s key expire_time
  | .LockUntilSet keys => .ok ((LockUntilSet s keys).1, [])
  | .Unlock keys => .ok (Unlock s keys)
  | .OnTileRetrieved key cached_tile => .ok (OnTileRetrieved s key cached_tile)
  | .OnRetrieveError key => .ok (OnRetrieveError s key)

/-- Effect of a sequence of calls, each made after the previous one returned;
the events of all calls are collected in order. A fault of any call is the
fault of the sequence. -/
def exec (s : TileCacher) : List Op → Outcome
  | [] => .ok (s, [])
  | op :: ops =>
    match step s op with
    | .error e => .error e
    | .ok (s1, evs1) =>
      match exec s1 ops with
      | .error e => .error e
      | .ok (s2, evs2) => .ok (s2, evs1 ++ evs2)

/-! ## Observations on call sequences -/

/-- The task an event settles: `SetResult` and `NotifyError` settle their task,
the other events settle none. -/
def Event.settles : Event → Option Handle
  | .SetResult task _ => some task
  | .NotifyError task => some task
  | _ => none

/-- The settlements a given task observes among `evs`, in order. -/
def observedBy (task : Handle) (evs : List Event) : List Event :=
  evs.filter (fun e => e.settles = some task)

/-- The events of an outcome, `none` for a fault. -/
def Outcome.events : Outcome → Option (List Event)
  | .ok r => some r.2
  | .error _ => none

/-- The final state of an outcome, `none` for a fault. -/
def Outcome.state : Outcome → Option TileCacher
  | .ok r => some r.1
  | .error _ => none

/-- Whether every call of a sequence started in `s` passes `guard`, evaluated
in the state in which the call is made. -/
def allowed (guard : TileCacher → Op → Bool) (s : TileCacher) : List Op → Bool
  | [] => true
  | op :: ops =>
    guard s op &&
      match step s op with
      | .ok (s1, _) => allowed guard s1 ops
      | .error _ => true

/-- Guard: `LockUntilSet` is given no key that has a fetch in flight. -/
def lockGuard (s : TileCacher) : Op → Bool
  | .LockUntilSet keys => keys.all (fun k => (s.get_waiters_ k).isNone)
  | _ => true

/-- Guard: `Set` is applied to no key that has a fetch in flight. -/
def setGuard (s : TileCacher) : Op → Bool
  | .Set key _ _ _ => (s.get_waiters_ key).isNone
  | _ => true

/-- The tasks handed to `Get` by a sequence of calls, in call order. -/
def accepted : List Op → List Handle
  | [] => []
  | .Get _ task :: ops => task :: accepted ops
  | _ :: ops => accepted ops

/-- The tasks settled (by `SetResult` or `NotifyError`) by a list of events, in
order, one item for each settlement. -/
def settled (evs : List Event) : List Handle := evs.filterMap Event.settles

/-- How often a task occurs in the waiter lists stored under `key`, counting
the list of `get_waiters_` and the list of `set_waiters_`. -/
def waitCount (s : TileCacher) (task : Handle) (key : Key) : Nat :=
  ((s.get_waiters_ key).getD []).count task + ((s.set_waiters_ key).getD []).count task

/-- Book-keeping of one task: `a` says whether `Get` accepted it, `c` counts its
settlements and `w` its occurrences in the waiter lists of each key. A task not
accepted is nowhere; an accepted task is either settled once and in no waiter
list, or unsettled and once in the lists of exactly one key. -/
def Tracked (a : Prop) (c : Nat) (w : Key → Nat) : Prop :=
  (¬ a → c = 0 ∧ ∀ k, w k = 0) ∧
  (a → (c = 1 ∧ ∀ k, w k = 0) ∨ (c = 0 ∧ ∃ k, w k = 1 ∧ ∀ k', k' ≠ k → w k' = 0))

/-- The tasks handed to `Get` for `key` by a sequence of calls, in call order:
the order of registration of the waiters of `key`. -/
def registered (key : Key) : List Op → List Handle
  | [] => []
  | .Get k task :: ops => if k = key then task :: registered key ops else registered key ops
  | _ :: ops => registered key ops

/-- Every waiter list of the map lists its tasks in the order in which the
calls `ops` registered them. -/
def InOrder (m : WaitersMap) (ops : List Op) : Prop :=
  ∀ k ws, m k = some ws → ws.Sublist (registered k ops)

end TileCacher

/-! # maps-express: HTTP worker pool

A shallow embedding of `src/http_client.cpp` (`RequestInfo`, `HTTPWorker`,
`HTTPClient`).

* All worker and client state is touched on the event loop thread only, so a
  method or callback is one transition on that state.
* Calls into proxygen and folly (connector, session, transaction) and the
  `SetResult` / `NotifyError` callbacks of a task are recorded as events in
  program order. The callbacks that proxygen makes later (`connectSuccess`,
  `connectError`, `onBody`, ...) are separate transitions.
* The DNS lookup of `ResolveHostname` is an input: `dns host port` says
  whether `addr_.setFromHostPort(host, port)` succeeds.
-/

/-- An `folly::IOBuf` chain: its buffers from the head on, each a list of
bytes. A null `std::unique_ptr<folly::IOBuf>` is `none`. -/
abbrev IOBuf := List (List Nat)

/-- The call `head->prependChain(other)` on the head of a chain. Chains are
circular, so inserting `other` before the head puts it at the very end of the
chain that starts at `head` (folly's documented use for appending). -/
def IOBuf.prependChain (head other : IOBuf) : IOBuf := head ++ other

/-- The function `IOBuf::computeChainDataLength`. -/
def IOBuf.computeChainDataLength (chain : IOBuf) : Nat := (chain.map List.length).sum

/-- The parts of a `proxygen::URL` the worker reads, and the rest of the text. -/
structure URL where
  host : String
  port : Nat
  path : String
  deriving DecidableEq

/-- A `proxygen::HTTPMessage`: a request head or a response head. -/
structure HTTPMessage where
  method : Nat
  url : URL
  statusCode : Nat
  headers : List (String × String)
  deriving DecidableEq

/-- The `HTTPResponse` handed to the task at end of message. -/
structure HTTPResponse where
  response : Option HTTPMessage
  response_body : Option IOBuf
  deriving DecidableEq

/-- Identity of an `HTTPClient::http_task_ptr`. -/
abbrev http_task_ptr := Nat

/-- The `struct RequestInfo` (http_client.cpp 24-30). -/
structure RequestInfo where
  async_task : http_task_ptr
  request : HTTPMessage
  request_body : Option IOBuf
  response : Option HTTPMessage
  response_body : Option IOBuf
  deriving DecidableEq

/-- A `proxygen::HTTPUpstreamSession`, with what `isClosing()` reports. -/
structure HTTPUpstreamSession where
  id : Nat
  isClosing : Bool
  deriving DecidableEq

/-- The error code of a `proxygen::HTTPException`, as `getProxygenError()`
reports it. -/
inductive ProxygenError where
  | kErrorTimeout
  | other (code : Nat)
  deriving DecidableEq

namespace HTTPClient

/-- The values of `HTTPClient::Error` used by http_client.cpp. -/
inductive Error where
  | internal
  | resolution
  | connection
  | timeout
  | network
  | shutdown
  deriving DecidableEq

end HTTPClient

/-- Calls made by a worker or by the client to the outside, in program order. -/
inductive HttpEvent where
  | NotifyError (async_task : http_task_ptr) (error : HTTPClient.Error)
  | SetResult (async_task : http_task_ptr) (http_response : HTTPResponse)
  | connectorReset
  | connect (addr : Option (String × Nat)) (timeout_ms : Nat)
  | newTransaction (session : HTTPUpstreamSession)
  | sendHeaders (request : HTTPMessage)
  | sendBody (body : IOBuf)
  | sendEOM
  | sendAbort
  | closeWhenIdle (session : HTTPUpstreamSession)
  deriving DecidableEq

/-- The constant `kMaxReconnects` (http_client.cpp 17). -/
def kMaxReconnects : Nat := 3

/-- The data members of `class HTTPWorker` (http_client.cpp 75-89) other than
the references to the event base, the timer and the shared queue. `txn_` says
whether the pointer is non-null. `num_reconnects_` is a `uint16_t`; it is only
incremented below `kMaxReconnects`, so it never wraps. -/
structure HTTPWorker where
  addr_ : Option (String × Nat)
  host_ : String
  port_ : Nat
  request_info_ : Option RequestInfo
  session_ : Option HTTPUpstreamSession
  txn_ : Bool
  num_reconnects_ : Nat
  hostname_resolved_ : Bool
  hold_connection_ : Bool
  deriving DecidableEq

namespace HTTPWorker

/-- What a worker method leaves behind: the worker, the shared queue
`pending_requests_` and the outside calls made. -/
structure Result where
  worker : HTTPWorker
  pending : List RequestInfo
  events : List HttpEvent
  deriving DecidableEq

/-- `HTTPWorker::busy` (http_client.cpp 60-62). -/
def busy (w : HTTPWorker) : Bool := w.request_info_.isSome

/-- `HTTPWorker::connected` (http_client.cpp 64-66). -/
def connected (w : HTTPWorker) : Bool := w.session_.isSome

/-- `HTTPWorker::~HTTPWorker` (http_client.cpp 110-116). -/
def destructor (w : HTTPWorker) : List HttpEvent :=
  (if w.txn_ then [HttpEvent.sendAbort] else []) ++ [HttpEvent.connectorReset]

/-- `HTTPWorker::Connect` (http_client.cpp 118-121). -/
def Connect (w : HTTPWorker) : List HttpEvent :=
  [HttpEvent.connectorReset, HttpEvent.connect w.addr_ 3000]

/-- `HTTPWorker::ResolveHostname` (http_client.cpp 123-133). -/
def ResolveHostname (dns : String → Nat → Bool) (w : HTTPWorker) : HTTPWorker × Bool :=
  if dns w.host_ w.port_ then
    ({ w with addr_ := some (w.host_, w.port_), hostname_resolved_ := true }, true)
  else (w, false)

/-- `HTTPWorker::SendRequest` (http_client.cpp 136-144). Both callers run it
with `request_info_` present (`Request` has just stored it, `connectSuccess`
tests it), so `assert(request_info_)` holds; `info` is that request. Moving the
request body out leaves `request_body` null. -/
def SendRequest (w : HTTPWorker) (info : RequestInfo) (session : HTTPUpstreamSession) :
    HTTPWorker × List HttpEvent :=
  ({ w with txn_ := true, request_info_ := some { info with request_body := none } },
   [HttpEvent.newTransaction session, HttpEvent.sendHeaders info.request]
     ++ (match info.request_body with
         | some body => [HttpEvent.sendBody body]
         | none => [])
     ++ [HttpEvent.sendEOM])

/-- `HTTPWorker::MaybeResetHostPort` (http_client.cpp 155-169). -/
def MaybeResetHostPort (w : HTTPWorker) (host : String) (port : Nat) : HTTPWorker × Bool :=
  let w1 := if w.host_ ≠ host then { w with host_ := host } else w
  let reset1 := decide (w.host_ ≠ host)
  let w2 := if w1.port_ ≠ port then { w1 with port_ := port } else w1
  let reset2 := reset1 || decide (w1.port_ ≠ port)
  (if reset2 then { w2 with hostname_resolved_ := false } else w2, reset2)

/-- `HTTPWorker::Request` (http_client.cpp 172-191): the worker, the outside
calls and the returned flag. -/
def Request (dns : String → Nat → Bool) (w : HTTPWorker) (request_info : RequestInfo) :
    HTTPWorker × List HttpEvent × Bool :=
  if w.request_info_.isSome then
    (w, [HttpEvent.NotifyError request_info.async_task HTTPClient.Error.internal], false)
  else
    let w1 := (w.MaybeResetHostPort request_info.request.url.host
      request_info.request.url.port).1
    let r := if w1.hostname_resolved_ then (w1, true) else w1.ResolveHostname dns
    if !r.2 then
      (r.1, [HttpEvent.NotifyError request_info.async_task HTTPClient.Error.resolution], false)
    else
      let w2 := { r.1 with request_info_ := some request_info }
      match w2.session_ with
      | some session =>
        if !session.isClosing then
          ((w2.SendRequest request_info session).1, (w2.SendRequest request_info session).2, true)
        else (w2, w2.Connect, true)
      | none => (w2, w2.Connect, true)

/-- `HTTPWorker::MaybeProcessNextRequest` (http_client.cpp 146-153), with the
returned flag. -/
def MaybeProcessNextRequest (dns : String → Nat → Bool) (w : HTTPWorker)
    (pending : List RequestInfo) : Result × Bool :=
  match pending with
  | request_info :: rest =>
    ({ worker := (w.Request dns request_info).1, pending := rest,
       events := (w.Request dns request_info).2.1 }, (w.Request dns request_info).2.2)
  | [] => ({ worker := w, pending := [], events := [] }, false)

/-- Constructor `HTTPWorker::HTTPWorker` (http_client.cpp 93-108). -/
def init (dns : String → Nat → Bool) (pending : List RequestInfo) (host : String)
    (port : Nat) : Result :=
  let w0 : HTTPWorker :=
    { addr_ := none, host_ := host, port_ := port, request_info_ := none, session_ := none,
      txn_ := false, num_reconnects_ := 0, hostname_resolved_ := false,
      hold_connection_ := false }
  let w1 := if host ≠ "" then (w0.ResolveHostname dns).1 else w0
  (w1.MaybeProcessNextRequest dns pending).1

/-- `HTTPWorker::connectSuccess` (http_client.cpp 194-200). -/
def connectSuccess (w : HTTPWorker) (session : HTTPUpstreamSession) :
    HTTPWorker × List HttpEvent :=
  let w1 := { w with num_reconnects_ := 0 }
  match w1.request_info_ with
  | some info =>
    ((w1.SendRequest info session).1,
      (w1.SendRequest info session).2 ++ [HttpEvent.closeWhenIdle session])
  | none => (w1, [HttpEvent.closeWhenIdle session])

/-- `HTTPWorker::connectError` (http_client.cpp 202-215). -/
def connectError (dns : String → Nat → Bool) (w : HTTPWorker) (pending : List RequestInfo) :
    Result :=
  if w.num_reconnects_ < kMaxReconnects then
    { worker := { w with num_reconnects_ := w.num_reconnects_ + 1 }, pending := pending,
      events := w.Connect }
  else
    let notify := match w.request_info_ with
      | some info => [HttpEvent.NotifyError info.async_task HTTPClient.Error.connection]
      | none => []
    let w1 := { w with num_reconnects_ := 0, request_info_ := none }
    let next := (w1.MaybeProcessNextRequest dns pending).1
    { next with events := notify ++ next.events }

/-- `HTTPWorker::detachTransaction` (http_client.cpp 217-219). -/
def detachTransaction (w : HTTPWorker) : HTTPWorker := { w with txn_ := false }

/-- `HTTPWorker::onHeadersComplete` (http_client.cpp 221-224). -/
def onHeadersComplete (w : HTTPWorker) (msg : HTTPMessage) :
    Except TileCacher.Fault HTTPWorker :=
  match w.request_info_ with
  | none => .error .assertion
  | some info => .ok { w with request_info_ := some { info with response := some msg } }

/-- `HTTPWorker::onBody` (http_client.cpp 226-233). -/
def onBody (w : HTTPWorker) (chain : IOBuf) : Except TileCacher.Fault HTTPWorker :=
  match w.request_info_ with
  | none => .error .assertion
  | some info =>
    match info.response_body with
    | some response_body =>
      let body := response_body.prependChain chain
      .ok { w with request_info_ := some { info with response_body := some body } }
    | none => .ok { w with request_info_ := some { info with response_body := some chain } }

/-- `HTTPWorker::onEOM` (http_client.cpp 235-242). -/
def onEOM (dns : String → Nat → Bool) (w : HTTPWorker) (pending : List RequestInfo) :
    Except TileCacher.Fault Result :=
  match w.request_info_ with
  | none => .error .assertion
  | some info =>
    let http_response : HTTPResponse :=
      { response := info.response, response_body := info.response_body }
    let next := (({ w with request_info_ := none }).MaybeProcessNextRequest dns pending).1
    .ok { next with events := HttpEvent.SetResult info.async_task http_response :: next.events }

/-- `HTTPWorker::onError` (http_client.cpp 244-255). -/
def onError (dns : String → Nat → Bool) (w : HTTPWorker) (pending : List RequestInfo)
    (error : ProxygenError) : Result :=
  match w.request_info_ with
  | some info =>
    let notify :=
      if error = ProxygenError.kErrorTimeout then
        HttpEvent.NotifyError info.async_task HTTPClient.Error.timeout
      else HttpEvent.NotifyError info.async_task HTTPClient.Error.network
    let next := (({ w with request_info_ := none }).MaybeProcessNextRequest dns pending).1
    { next with events := notify :: next.events }
  | none => (w.MaybeProcessNextRequest dns pending).1

end HTTPWorker

namespace HTTPWorker

/-- The callbacks proxygen makes into a worker: those of
`HTTPConnector::Callback` and of `HTTPTransactionHandler` that have a body. -/
inductive Callback where
  | connectSuccess (session : HTTPUpstreamSession)
  | connectError
  | detachTransaction
  | onHeadersComplete (msg : HTTPMessage)
  | onBody (chain : IOBuf)
  | onEOM
  | onError (error : ProxygenError)
  deriving DecidableEq

/-- Effect of one callback on a worker and the shared queue. -/
def callback (dns : String → Nat → Bool) (w : HTTPWorker) (pending : List RequestInfo) :
    Callback → Except TileCacher.Fault Result
  | .connectSuccess session =>
    .ok { worker := (w.connectSuccess session).1, pending := pending,
          events := (w.connectSuccess session).2 }
  | .connectError => .ok (w.connectError dns pending)
  | .detachTransaction => .ok { worker := w.detachTransaction, pending := pending, events := [] }
  | .onHeadersComplete msg =>
    match w.onHeadersComplete msg with
    | .ok w1 => .ok { worker := w1, pending := pending, events := [] }
    | .error e => .error e
  | .onBody chain =>
    match w.onBody chain with
    | .ok w1 => .ok { worker := w1, pending := pending, events := [] }
    | .error e => .error e
  | .onEOM => w.onEOM dns pending
  | .onError error => .ok (w.onError dns pending error)

/-- One call into a worker: `Request`, or a callback. -/
inductive Op where
  | Request (request_info : RequestInfo)
  | callback (cb : Callback)
  deriving DecidableEq

/-- Effect of one call into a worker. -/
def step (dns : String → Nat → Bool) (w : HTTPWorker) (pending : List RequestInfo) :
    Op → Except TileCacher.Fault Result
  | .Request request_info =>
    .ok { worker := (w.Request dns request_info).1, pending := pending,
          events := (w.Request dns request_info).2.1 }
  | .callback cb => w.callback dns pending cb

/-- Effect of a sequence of calls into a worker, events collected in order. -/
def exec (dns : String → Nat → Bool) (w : HTTPWorker) (pending : List RequestInfo) :
    List Op → Except TileCacher.Fault Result
  | [] => .ok { worker := w, pending := pending, events := [] }
  | op :: ops =>
    match step dns w pending op with
    | .error e => .error e
    | .ok r1 =>
      match exec dns r1.worker r1.pending ops with
      | .error e => .error e
      | .ok r2 => .ok { r2 with events := r1.events ++ r2.events }

end HTTPWorker

/-- The data members of `class HTTPClient` that the methods of http_client.cpp
read and write (the event base and the timer are left out). -/
structure HTTPClient where
  workers_pool_ : List HTTPWorker
  pending_requests_ : List RequestInfo
  stopped_ : Bool
  deriving DecidableEq

namespace HTTPClient

/-- Constructor `HTTPClient::HTTPClient` (http_client.cpp 266-281): the queue is
empty while the workers are built, so each worker constructor leaves it empty
and all workers start out alike. -/
def init (dns : String → Nat → Bool) (host : String) (port : Nat) (num_workers : Nat) :
    HTTPClient :=
  { workers_pool_ := List.replicate num_workers (HTTPWorker.init dns [] host port).worker
    pending_requests_ := []
    stopped_ := false }

/-- `HTTPClient::Shutdown` (http_client.cpp 287-298). Clearing the pool runs the
destructor of each worker; the queue is walked, not emptied. -/
def Shutdown (c : HTTPClient) : HTTPClient × List HttpEvent :=
  if c.stopped_ then (c, [])
  else
    ({ c with workers_pool_ := [], stopped_ := true },
     (c.workers_pool_.map HTTPWorker.destructor).flatten
       ++ c.pending_requests_.map
           (fun request_info =>
             HttpEvent.NotifyError request_info.async_task HTTPClient.Error.shutdown))

/-- The loop of `HTTPClient::Request` (http_client.cpp 323-328): the pool and
the outside calls when a worker that is not busy is found, `none` otherwise. -/
def dispatch (dns : String → Nat → Bool) (request_info : RequestInfo) :
    List HTTPWorker → Option (List HTTPWorker × List HttpEvent)
  | [] => none
  | wrk :: rest =>
    if !wrk.busy then
      some ((wrk.Request dns request_info).1 :: rest, (wrk.Request dns request_info).2.1)
    else
      match dispatch dns request_info rest with
      | some r => some (wrk :: r.1, r.2)
      | none => none

/-- The `RequestInfo` built by `HTTPClient::Request` (http_client.cpp 307-319). -/
def makeRequestInfo (async_task : http_task_ptr) (method : Nat) (url : URL)
    (headers : Option (List (String × String))) (body : Option IOBuf) : RequestInfo :=
  { async_task := async_task
    request :=
      { method := method, url := url, statusCode := 0
        headers := headers.getD [] ++
          (match body with
           | some b => [("Content-Length", toString b.computeChainDataLength)]
           | none => []) }
    request_body := body
    response := none
    response_body := none }

/-- `HTTPClient::Request` (http_client.cpp 301-331). -/
def Request (dns : String → Nat → Bool) (c : HTTPClient) (async_task : http_task_ptr)
    (method : Nat) (url : URL) (headers : Option (List (String × String)))
    (body : Option IOBuf) : HTTPClient × List HttpEvent :=
  if c.stopped_ then (c, [HttpEvent.NotifyError async_task HTTPClient.Error.shutdown])
  else
    match dispatch dns (makeRequestInfo async_task method url headers body) c.workers_pool_ with
    | some r => ({ c with workers_pool_ := r.1 }, r.2)
    | none =>
      ({ c with pending_requests_ :=
          c.pending_requests_ ++ [makeRequestInfo async_task method url headers body] }, [])

/-- How `HTTPClient::RequestAndWait` (http_client.cpp 333-355) proceeds: it
returns `nullptr` at once, or it issues the request for its own task and blocks
on the baton until that task is settled. -/
inductive WaitResult where
  | nullptr
  | waits (c : HTTPClient) (events : List HttpEvent)
  deriving DecidableEq

/-- `HTTPClient::RequestAndWait` up to `baton.wait()`. `task` is the task the
method creates and `inEventBaseThread` what `evb_.isInEventBaseThread()` says. -/
def RequestAndWait (dns : String → Nat → Bool) (c : HTTPClient) (inEventBaseThread : Bool)
    (task : http_task_ptr) (method : Nat) (url : URL)
    (headers : Option (List (String × String))) (body : Option IOBuf) : WaitResult :=
  if c.stopped_ then WaitResult.nullptr
  else if inEventBaseThread then WaitResult.nullptr
  else
    WaitResult.waits (c.Request dns task method url headers body).1
      (c.Request dns task method url headers body).2

/-- One step of the client: a public method, or a callback into the worker at
an index of the pool. -/
inductive Op where
  | Request (async_task : http_task_ptr) (method : Nat) (url : URL)
      (headers : Option (List (String × String))) (body : Option IOBuf)
  | Shutdown
  | callback (index : Nat) (cb : HTTPWorker.Callback)
  deriving DecidableEq

/-- Effect of one step of the client. A callback for an index outside the pool
has no worker to run on and does nothing. -/
def step (dns : String → Nat → Bool) (c : HTTPClient) :
    Op → Except TileCacher.Fault (HTTPClient × List HttpEvent)
  | .Request async_task method url headers body =>
    .ok (c.Request dns async_task method url headers body)
  | .Shutdown => .ok c.Shutdown
  | .callback index cb =>
    match c.workers_pool_[index]? with
    | none => .ok (c, [])
    | some w =>
      match w.callback dns c.pending_requests_ cb with
      | .error e => .error e
      | .ok r =>
        .ok ({ c with workers_pool_ := c.workers_pool_.set index r.worker
                      pending_requests_ := r.pending }, r.events)

/-- Effect of a sequence of client steps, events collected in order. -/
def exec (dns : String → Nat → Bool) (c : HTTPClient) :
    List Op → Except TileCacher.Fault (HTTPClient × List HttpEvent)
  | [] => .ok (c, [])
  | op :: ops =>
    match step dns c op with
    | .error e => .error e
    | .ok r1 =>
      match exec dns r1.1 ops with
      | .error e => .error e
      | .ok r2 => .ok (r2.1, r1.2 ++ r2.2)

end HTTPClient

/-- The tasks settled by a list of events together with how: the error of a
`NotifyError`, `none` for a `SetResult`. -/
def settlements : List HttpEvent → List (http_task_ptr × Option HTTPClient.Error)
  | [] => []
  | .NotifyError async_task error :: evs => (async_task, some error) :: settlements evs
  | .SetResult async_task _ :: evs => (async_task, none) :: settlements evs
  | _ :: evs => settlements evs

/-- The number of `connector_.connect` calls among the events. -/
def connectCalls : List HttpEvent → Nat
  | [] => 0
  | .connect _ _ :: evs => connectCalls evs + 1
  | _ :: evs => connectCalls evs

namespace TileCacher

/-! ## Container lemmas -/

@[simp] theorem WaitersMap.empty_apply (k : Key) : WaitersMap.empty k = none := rfl

@[simp] theorem WaitersMap.assign_same (m : WaitersMap) (k : Key) (ws : waiters_vec_t) :
    m.assign k ws k = some ws := by
  simp [WaitersMap.assign]

theorem WaitersMap.assign_other (m : WaitersMap) {k k' : Key} (ws : waiters_vec_t)
    (h : k' ≠ k) : m.assign k ws k' = m k' := by
  simp [WaitersMap.assign, h]

@[simp] theorem WaitersMap.erase_same (m : WaitersMap) (k : Key) : m.erase k k = none := by
  simp [WaitersMap.erase]

theorem WaitersMap.erase_other (m : WaitersMap) {k k' : Key} (h : k' ≠ k) :
    m.erase k k' = m k' := by
  simp [WaitersMap.erase, h]

theorem WaitersMap.erase_of_absent (m : WaitersMap) (k : Key) (h : m k = none) :
    m.erase k = m := by
  funext k'
  by_cases hk : k' = k
  · subst hk; simp [h]
  · simp [WaitersMap.erase, hk]

theorem peek_eq_lookup (c : LruCache) (k : Key) : c.peek k = lookup k c.items := by
  unfold LruCache.peek LruCache.Get
  cases h : lookup k c.items <;> simp

theorem Get_of_miss (c : LruCache) (k : Key) (h : c.peek k = none) : c.Get k = (none, c) := by
  rw [peek_eq_lookup] at h
  simp [LruCache.Get, h]

theorem lookup_removeKey_ne (k k' : Key) (l : List (Key × CachedTile)) (h : k' ≠ k) :
    lookup k' (removeKey k l) = lookup k' l := by
  induction l with
  | nil => rfl
  | cons e l ih =>
    obtain ⟨a, v⟩ := e
    by_cases ha : a = k
    · subst ha
      have : a ≠ k' := fun h' => h h'.symm
      simp [removeKey, lookup, this, ih]
    · by_cases hb : a = k'
      · subst hb
        simp [removeKey, lookup, ha]
      · simp [removeKey, lookup, ha, hb, ih]

theorem lookup_take_some (k : Key) (n : Nat) (l : List (Key × CachedTile)) (v : CachedTile)
    (h : lookup k (l.take n) = some v) : lookup k l = some v := by
  induction l generalizing n with
  | nil => simp [lookup] at h
  | cons e l ih =>
    obtain ⟨a, w⟩ := e
    cases n with
    | zero => simp [lookup] at h
    | succ n =>
      by_cases ha : a = k
      · simpa [lookup, ha] using h
      · simp only [List.take_succ_cons, lookup, ha, if_false] at h ⊢
        exact ih n h

/-- Promotion by `Get` does not change what any key maps to. -/
theorem peek_Get (c : LruCache) (k k' : Key) : (c.Get k).2.peek k' = c.peek k' := by
  simp only [peek_eq_lookup]
  unfold LruCache.Get
  cases h : lookup k c.items with
  | none => rfl
  | some v =>
    by_cases hk : k' = k
    · subst hk; simp [lookup, h]
    · have : k ≠ k' := fun h' => hk h'.symm
      simp [lookup, this, lookup_removeKey_ne _ _ _ hk]

@[simp] theorem capacity_Get (c : LruCache) (k : Key) : (c.Get k).2.capacity = c.capacity := by
  unfold LruCache.Get
  cases lookup k c.items <;> rfl

@[simp] theorem capacity_Set (c : LruCache) (k : Key) (v : CachedTile) :
    (c.Set k v).capacity = c.capacity := rfl

/-- With room for at least one entry, a value just stored is found. -/
theorem peek_Set_same (c : LruCache) (k : Key) (v : CachedTile) (hcap : 1 ≤ c.capacity) :
    (c.Set k v).peek k = some v := by
  rw [peek_eq_lookup]
  unfold LruCache.Set
  obtain ⟨n, hn⟩ : ∃ n, c.capacity = n + 1 := ⟨c.capacity - 1, by omega⟩
  simp [hn, lookup]

/-- Storing under `k` can only evict other keys, never change their value. -/
theorem peek_Set_other (c : LruCache) (k k' : Key) (v w : CachedTile) (hk : k' ≠ k)
    (h : (c.Set k v).peek k' = some w) : c.peek k' = some w := by
  rw [peek_eq_lookup] at h ⊢
  unfold LruCache.Set at h
  have h1 := lookup_take_some _ _ _ _ h
  have : k ≠ k' := fun h' => hk h'.symm
  simpa [lookup, this, lookup_removeKey_ne _ _ _ hk] using h1

/-! ## The four branches of `Get` -/

theorem Get_hit (s : TileCacher) (k : Key) (h : Handle) (v : CachedTile) (hk : k ≠ "")
    (hhot : s.tmp_cache_.peek k = some v) :
    Get s k h = .ok ({ s with tmp_cache_ := (s.tmp_cache_.Get k).2 }, [.SetResult h (some v)]) := by
  unfold LruCache.peek at hhot
  unfold Get
  rw [if_neg hk]
  rcases hg : s.tmp_cache_.Get k with ⟨r, c⟩
  rw [hg] at hhot
  simp only at hhot
  subst hhot
  rfl

theorem Get_locked (s : TileCacher) (k : Key) (h : Handle) (ws : waiters_vec_t) (hk : k ≠ "")
    (hhot : s.tmp_cache_.peek k = none) (hset : s.set_waiters_ k = some ws) :
    Get s k h = .ok ({ s with set_waiters_ := s.set_waiters_.assign k (ws ++ [h]) }, []) := by
  unfold Get
  rw [if_neg hk, Get_of_miss _ _ hhot]
  simp only [hset]

theorem Get_pending (s : TileCacher) (k : Key) (h : Handle) (ws : waiters_vec_t) (hk : k ≠ "")
    (hhot : s.tmp_cache_.peek k = none) (hset : s.set_waiters_ k = none)
    (hget : s.get_waiters_ k = some ws) :
    Get s k h = .ok ({ s with get_waiters_ := s.get_waiters_.assign k (ws ++ [h]) }, []) := by
  unfold Get
  rw [if_neg hk, Get_of_miss _ _ hhot]
  simp only [hset, hget]

theorem Get_cold (s : TileCacher) (k : Key) (h : Handle) (hk : k ≠ "")
    (hhot : s.tmp_cache_.peek k = none) (hset : s.set_waiters_ k = none)
    (hget : s.get_waiters_ k = none) :
    Get s k h = .ok ({ s with get_waiters_ := s.get_waiters_.assign k [h] }, [.GetImpl k]) := by
  unfold Get
  rw [if_neg hk, Get_of_miss _ _ hhot]
  simp only [hset, hget]

theorem exec_cons_ok (s s1 : TileCacher) (op : Op) (ops : List Op) (evs1 : List Event)
    (h : step s op = .ok (s1, evs1)) :
    exec s (op :: ops) = (exec s1 ops).map (fun r => (r.1, evs1 ++ r.2)) := by
  simp only [exec, h]
  cases exec s1 ops with
  | error e => rfl
  | ok r => rfl

/-- Further `Get`s on a key with a fetch in flight only queue up, in call order. -/
theorem exec_Get_pending (k : Key) (hk : k ≠ "") (hs : List Handle) :
    ∀ (s : TileCacher) (ws : waiters_vec_t), s.tmp_cache_.peek k = none →
      s.set_waiters_ k = none → s.get_waiters_ k = some ws →
      ∃ s2, exec s (hs.map (Op.Get k)) = .ok (s2, []) ∧ s2.tmp_cache_ = s.tmp_cache_ ∧
        s2.set_waiters_ = s.set_waiters_ ∧ s2.get_waiters_ k = some (ws ++ hs) ∧
        ∀ k', k' ≠ k → s2.get_waiters_ k' = s.get_waiters_ k' := by
  induction hs with
  | nil =>
    intro s ws _ _ hget
    exact ⟨s, rfl, rfl, rfl, by simpa using hget, fun _ _ => rfl⟩
  | cons h hs ih =>
    intro s ws hhot hset hget
    have hstep : step s (Op.Get k h) =
        .ok ({ s with get_waiters_ := s.get_waiters_.assign k (ws ++ [h]) }, []) :=
      Get_pending s k h ws hk hhot hset hget
    obtain ⟨s2, he, hc, hsw, hgw, hoth⟩ :=
      ih { s with get_waiters_ := s.get_waiters_.assign k (ws ++ [h]) } (ws ++ [h]) hhot hset
        (by simp)
    refine ⟨s2, ?_, hc, hsw, by simpa using hgw, ?_⟩
    · rw [List.map_cons, exec_cons_ok _ _ _ _ _ hstep, he]
      rfl
    · intro k' hk'
      rw [hoth k' hk']
      exact WaitersMap.assign_other _ _ hk'

/-- C1. Request coalescing: when a non-empty key `k` is absent from the hot
cache (capacity at least 1) and from both waiter maps, the first of N ≥ 1
consecutive `Get(k, ·)` calls invokes `GetImpl(k)` once and the others invoke
nothing; a following `OnTileRetrieved(k, V)` with a tile `V` resolves every
handle with `V` (in call order), erases the `get_waiters_` entry of `k`, and
leaves `V` in the hot cache under `k`. -/
theorem get_coalescing (s : TileCacher) (k : Key) (V : CachedTile) (h : Handle)
    (hs : List Handle) (hk : k ≠ "") (hcap : 1 ≤ s.tmp_cache_.capacity)
    (hhot : s.tmp_cache_.peek k = none) (hget : s.get_waiters_ k = none)
    (hset : s.set_waiters_ k = none) :
    ∃ s1 s2, Get s k h = .ok (s1, [.GetImpl k]) ∧
      exec s1 (hs.map (Op.Get k)) = .ok (s2, []) ∧
      exec s ((h :: hs).map (Op.Get k)) = .ok (s2, [.GetImpl k]) ∧
      (OnTileRetrieved s2 k (some V)).2
        = (h :: hs).map (fun t => Event.SetResult t (some V)) ∧
      (OnTileRetrieved s2 k (some V)).1.get_waiters_ k = none ∧
      (OnTileRetrieved s2 k (some V)).1.tmp_cache_.peek k = some V := by
  have h1 := Get_cold s k h hk hhot hset hget
  obtain ⟨s2, he, hc, _, hgw, _⟩ :=
    exec_Get_pending k hk hs { s with get_waiters_ := s.get_waiters_.assign k [h] } [h]
      hhot hset (by simp)
  have h1s : step s (Op.Get k h) =
      .ok ({ s with get_waiters_ := s.get_waiters_.assign k [h] }, [.GetImpl k]) := h1
  refine ⟨_, s2, h1, he, ?_, ?_, ?_, ?_⟩
  · rw [List.map_cons, exec_cons_ok _ _ _ _ _ h1s, he]
    rfl
  · simp [OnTileRetrieved, hgw]
  · simp [OnTileRetrieved, hgw]
  · have hcap2 : 1 ≤ s2.tmp_cache_.capacity := by rw [hc]; exact hcap
    simp [OnTileRetrieved, hgw, peek_Set_same _ _ _ hcap2]

/-- Witness for C1: three callers on the cold key `k1` of a
fresh cacher with room for one tile. -/
theorem get_coalescing_witness :
    ∃ s1 s2, Get (init 1) "k1" 1 = .ok (s1, [.GetImpl "k1"]) ∧
      exec s1 ([2, 3].map (Op.Get "k1")) = .ok (s2, []) ∧
      exec (init 1) ((1 :: [2, 3]).map (Op.Get "k1")) = .ok (s2, [.GetImpl "k1"]) ∧
      (OnTileRetrieved s2 "k1" (some 7)).2
        = (1 :: [2, 3]).map (fun t => Event.SetResult t (some 7)) ∧
      (OnTileRetrieved s2 "k1" (some 7)).1.get_waiters_ "k1" = none ∧
      (OnTileRetrieved s2 "k1" (some 7)).1.tmp_cache_.peek "k1" = some 7 :=
  get_coalescing (init 1) "k1" 7 1 [2, 3] (by decide) (by decide) (by decide) (by decide)
    (by decide)

/-! ## Locks -/

theorem LockUntilSet_single_free (s : TileCacher) (k : Key) (h : s.set_waiters_ k = none) :
    LockUntilSet s [k] = ({ s with set_waiters_ := s.set_waiters_.assign k [] }, some [k]) := by
  simp [LockUntilSet, lockLoop, h]

theorem LockUntilSet_single_held (s : TileCacher) (k : Key) (ws : waiters_vec_t)
    (h : s.set_waiters_ k = some ws) : LockUntilSet s [k] = (s, none) := by
  simp [LockUntilSet, lockLoop, h]

theorem Unlock_single_held (s : TileCacher) (k : Key) (ws : waiters_vec_t)
    (h : s.set_waiters_ k = some ws) :
    Unlock s [k] = ({ s with set_waiters_ := s.set_waiters_.erase k },
      ws.map Event.NotifyError) := by
  simp [Unlock, h]

theorem Set_held (s : TileCacher) (k : Key) (V : CachedTile) (ttl : Seconds)
    (st : Option Handle) (ws : waiters_vec_t) (hk : k ≠ "") (h : s.set_waiters_ k = some ws) :
    Set s k (some V) ttl st =
      .ok ({ s with tmp_cache_ := s.tmp_cache_.Set k V
                    set_waiters_ := s.set_waiters_.erase k },
           ws.map (fun t => Event.SetResult t (some V)) ++ [.SetImpl k V ttl]) := by
  unfold Set
  rw [if_neg hk]
  simp only [h]

/-- C2. Lock-until-set: when a non-empty key `k` is absent from the hot cache
and from `set_waiters_`, the calls `LockUntilSet([k])`, `Get(k, h)`,
`Set(k, V, ttl)` run without fault; the `Get` invokes nothing (no `GetImpl`),
the `Set` resolves `h` with `V` and then calls `SetImpl`, and afterwards
`set_waiters_` has no entry for `k`. -/
theorem lock_until_set (s : TileCacher) (k : Key) (V : CachedTile) (ttl : Seconds) (h : Handle)
    (st : Option Handle) (hk : k ≠ "") (hhot : s.tmp_cache_.peek k = none)
    (hset : s.set_waiters_ k = none) :
    (LockUntilSet s [k]).2 = some [k] ∧
    ∃ s2 s3, Get (LockUntilSet s [k]).1 k h = .ok (s2, []) ∧
      Set s2 k (some V) ttl st = .ok (s3, [.SetResult h (some V), .SetImpl k V ttl]) ∧
      exec s [.LockUntilSet [k], .Get k h, .Set k (some V) ttl st]
        = .ok (s3, [.SetResult h (some V), .SetImpl k V ttl]) ∧
      s3.set_waiters_ k = none := by
  rw [LockUntilSet_single_free s k hset]
  have hg := Get_locked { s with set_waiters_ := s.set_waiters_.assign k [] } k h [] hk hhot
    (by simp)
  have hs := Set_held
    { s with set_waiters_ := (s.set_waiters_.assign k []).assign k ([] ++ [h]) }
    k V ttl st ([] ++ [h]) hk (by simp)
  refine ⟨rfl, _, _, hg, hs, ?_, by simp⟩
  have e1 : step s (.LockUntilSet [k]) =
      .ok ({ s with set_waiters_ := s.set_waiters_.assign k [] }, []) := by
    simp [step, LockUntilSet_single_free s k hset]
  rw [exec_cons_ok _ _ _ _ _ e1,
    exec_cons_ok _ _ (.Get k h) _ _ hg,
    exec_cons_ok _ _ (.Set k (some V) ttl st) _ _ hs]
  rfl

/-- Witness for C2 on a fresh cacher. -/
theorem lock_until_set_witness :
    (LockUntilSet (init 1) ["k2"]).2 = some ["k2"] ∧
    ∃ s2 s3, Get (LockUntilSet (init 1) ["k2"]).1 "k2" 5 = .ok (s2, []) ∧
      Set s2 "k2" (some 9) 60 none = .ok (s3, [.SetResult 5 (some 9), .SetImpl "k2" 9 60]) ∧
      exec (init 1) [.LockUntilSet ["k2"], .Get "k2" 5, .Set "k2" (some 9) 60 none]
        = .ok (s3, [.SetResult 5 (some 9), .SetImpl "k2" 9 60]) ∧
      s3.set_waiters_ "k2" = none :=
  lock_until_set (init 1) "k2" 9 60 5 none (by decide) (by decide) (by decide)

theorem OnRetrieveError_events (t : TileCacher) (k : Key) (ws : waiters_vec_t)
    (h : t.get_waiters_ k = some ws) : (OnRetrieveError t k).2 = ws.map Event.NotifyError := by
  simp [OnRetrieveError, h]

/-- C3 (as the code has it). Lock abandoned: for a non-empty key `k` absent
from the hot cache, `LockUntilSet([k])`, `Get(k, h)`, `Unlock([k])` run without
fault and emit only `NotifyError` calls, one for each task waiting on the lock
with `h` last: `h` is failed and `GetImpl(k)` is never invoked. `NotifyError`
takes no argument in the cacher, so the failure carries no error kind, and
`OnRetrieveError(k)` fails its get waiters with the very same call. -/
theorem lock_abandoned (s : TileCacher) (k : Key) (h : Handle) (hk : k ≠ "")
    (hhot : s.tmp_cache_.peek k = none) :
    (∃ s3, exec s [.LockUntilSet [k], .Get k h, .Unlock [k]]
        = .ok (s3, (((s.set_waiters_ k).getD []) ++ [h]).map Event.NotifyError) ∧
      s3.set_waiters_ k = none) ∧
    Event.NotifyError h ∈ (((s.set_waiters_ k).getD []) ++ [h]).map Event.NotifyError ∧
    Event.GetImpl k ∉ (((s.set_waiters_ k).getD []) ++ [h]).map Event.NotifyError ∧
    ∀ (t : TileCacher) (ws : waiters_vec_t), t.get_waiters_ k = some ws → h ∈ ws →
      Event.NotifyError h ∈ (OnRetrieveError t k).2 := by
  refine ⟨?_, by simp, by simp, ?_⟩
  · cases hset : s.set_waiters_ k with
    | none =>
      have e1 : step s (.LockUntilSet [k]) =
          .ok ({ s with set_waiters_ := s.set_waiters_.assign k [] }, []) := by
        simp [step, LockUntilSet_single_free s k hset]
      have hg := Get_locked { s with set_waiters_ := s.set_waiters_.assign k [] } k h [] hk
        hhot (by simp)
      have hu : step { s with set_waiters_ := (s.set_waiters_.assign k []).assign k ([] ++ [h]) }
          (.Unlock [k]) = .ok (_, _) :=
        congrArg Except.ok (Unlock_single_held _ k ([] ++ [h]) (by simp))
      refine ⟨{ s with set_waiters_ :=
        ((s.set_waiters_.assign k []).assign k ([] ++ [h])).erase k }, ?_, ?_⟩
      · rw [exec_cons_ok _ _ _ _ _ e1, exec_cons_ok _ _ (.Get k h) _ _ hg,
          exec_cons_ok _ _ (.Unlock [k]) _ _ hu]
        rfl
      · simp
    | some ws =>
      have e1 : step s (.LockUntilSet [k]) = .ok (s, []) := by
        simp [step, LockUntilSet_single_held s k ws hset]
      have hg := Get_locked s k h ws hk hhot hset
      have hu : step { s with set_waiters_ := s.set_waiters_.assign k (ws ++ [h]) }
          (.Unlock [k]) = .ok (_, _) :=
        congrArg Except.ok (Unlock_single_held _ k (ws ++ [h]) (by simp))
      refine ⟨{ s with set_waiters_ := (s.set_waiters_.assign k (ws ++ [h])).erase k }, ?_, ?_⟩
      · rw [exec_cons_ok _ _ _ _ _ e1, exec_cons_ok _ _ (.Get k h) _ _ hg,
          exec_cons_ok _ _ (.Unlock [k]) _ _ hu]
        simp [exec, Except.map]
      · simp
  · intro t ws hget hmem
    rw [OnRetrieveError_events t k ws hget]
    exact List.mem_map_of_mem _ hmem

/-- Witness for C3 (as the code has it) on a fresh cacher. -/
theorem lock_abandoned_witness :
    (∃ s3, exec (init 1) [.LockUntilSet ["k3"], .Get "k3" 1, .Unlock ["k3"]]
        = .ok (s3, ((((init 1).set_waiters_ "k3").getD []) ++ [1]).map Event.NotifyError) ∧
      s3.set_waiters_ "k3" = none) ∧
    Event.NotifyError 1 ∈ ((((init 1).set_waiters_ "k3").getD []) ++ [1]).map Event.NotifyError ∧
    Event.GetImpl "k3" ∉
      ((((init 1).set_waiters_ "k3").getD []) ++ [1]).map Event.NotifyError ∧
    ∀ (t : TileCacher) (ws : waiters_vec_t), t.get_waiters_ "k3" = some ws → 1 ∈ ws →
      Event.NotifyError 1 ∈ (OnRetrieveError t "k3").2 :=
  lock_abandoned (init 1) "k3" 1 (by decide) (by decide)

/-- C3 as stated fails: the task waiting on an abandoned lock and the task
waiting on a failed fetch observe the same settlement, `NotifyError` without
any error kind, so `cancelled` cannot be told from `fetch`. -/
theorem lock_abandoned_counterexample :
    (exec (init 1) [.LockUntilSet ["k3"], .Get "k3" 1, .Unlock ["k3"]]).events
      = some [.NotifyError 1] ∧
    (exec (init 1) [.Get "k3" 1, .OnRetrieveError "k3"]).events
      = some [.GetImpl "k3", .NotifyError 1] ∧
    (exec (init 1) [.LockUntilSet ["k3"], .Get "k3" 1, .Unlock ["k3"]]).events.map (observedBy 1)
      = (exec (init 1) [.Get "k3" 1, .OnRetrieveError "k3"]).events.map (observedBy 1) := by
  decide

/-! ## Case analysis of the calls -/

theorem Get_cases (s s1 : TileCacher) (k : Key) (h : Handle) (evs : List Event)
    (hget : Get s k h = .ok (s1, evs)) :
    k ≠ "" ∧
    ((∃ v, s.tmp_cache_.peek k = some v ∧
        s1 = { s with tmp_cache_ := (s.tmp_cache_.Get k).2 } ∧ evs = [.SetResult h (some v)]) ∨
     (∃ ws, s.tmp_cache_.peek k = none ∧ s.set_waiters_ k = some ws ∧
        s1 = { s with set_waiters_ := s.set_waiters_.assign k (ws ++ [h]) } ∧ evs = []) ∨
     (∃ ws, s.tmp_cache_.peek k = none ∧ s.set_waiters_ k = none ∧ s.get_waiters_ k = some ws ∧
        s1 = { s with get_waiters_ := s.get_waiters_.assign k (ws ++ [h]) } ∧ evs = []) ∨
     (s.tmp_cache_.peek k = none ∧ s.set_waiters_ k = none ∧ s.get_waiters_ k = none ∧
        s1 = { s with get_waiters_ := s.get_waiters_.assign k [h] } ∧ evs = [.GetImpl k])) := by
  by_cases hk : k = ""
  · simp [Get, hk] at hget
  refine ⟨hk, ?_⟩
  cases hhot : s.tmp_cache_.peek k with
  | some v =>
    rw [Get_hit s k h v hk hhot] at hget
    injection hget with hget
    injection hget with h1 h2
    exact Or.inl ⟨v, rfl, h1.symm, h2.symm⟩
  | none =>
    cases hset : s.set_waiters_ k with
    | some ws =>
      rw [Get_locked s k h ws hk hhot hset] at hget
      injection hget with hget
      injection hget with h1 h2
      exact Or.inr (Or.inl ⟨ws, rfl, rfl, h1.symm, h2.symm⟩)
    | none =>
      cases hgw : s.get_waiters_ k with
      | some ws =>
        rw [Get_pending s k h ws hk hhot hset hgw] at hget
        injection hget with hget
        injection hget with h1 h2
        exact Or.inr (Or.inr (Or.inl ⟨ws, rfl, rfl, rfl, h1.symm, h2.symm⟩))
      | none =>
        rw [Get_cold s k h hk hhot hset hgw] at hget
        injection hget with hget
        injection hget with h1 h2
        exact Or.inr (Or.inr (Or.inr ⟨rfl, rfl, rfl, h1.symm, h2.symm⟩))

theorem Set_cases (s s1 : TileCacher) (k : Key) (t : Option CachedTile) (ttl : Seconds)
    (st : Option Handle) (evs : List Event) (hset : Set s k t ttl st = .ok (s1, evs)) :
    k ≠ "" ∧ ∃ v ws, t = some v ∧ s.set_waiters_ k = some ws ∧
      s1 = { s with tmp_cache_ := s.tmp_cache_.Set k v
                    set_waiters_ := s.set_waiters_.erase k } ∧
      evs = ws.map (fun g => Event.SetResult g (some v)) ++ [.SetImpl k v ttl] := by
  by_cases hk : k = ""
  · simp [Set, hk] at hset
  refine ⟨hk, ?_⟩
  cases t with
  | none => simp [Set, hk] at hset
  | some v =>
    cases hsw : s.set_waiters_ k with
    | none => simp [Set, hk, hsw] at hset
    | some ws =>
      rw [Set_held s k v ttl st ws hk hsw] at hset
      injection hset with hset
      injection hset with h1 h2
      exact ⟨v, ws, rfl, rfl, h1.symm, h2.symm⟩

theorem Touch_cases (s s1 : TileCacher) (k : Key) (ttl : Seconds) (evs : List Event)
    (h : Touch s k ttl = .ok (s1, evs)) : s1 = s ∧ evs = [.TouchImpl k ttl] := by
  by_cases hk : k = ""
  · simp [Touch, hk] at h
  · simp only [Touch, if_neg hk] at h
    injection h with h
    injection h with h1 h2
    exact ⟨h1.symm, h2.symm⟩

/-! ## Effect of the lock loop and of `Unlock` on each key -/

theorem lockLoop_apply (ks : List Key) :
    ∀ (m : WaitersMap) (b : Bool) (lk : List Key) (k : Key),
      (lockLoop m b lk ks).1 k = if m k = none ∧ k ∈ ks then some [] else m k := by
  induction ks with
  | nil => intro m b lk k; simp [lockLoop]
  | cons a ks ih =>
    intro m b lk k
    unfold lockLoop
    cases hma : m a with
    | none =>
      simp only [ih]
      by_cases hka : k = a
      · subst hka; simp [hma]
      · simp [WaitersMap.assign_other _ _ hka, hka]
    | some ws =>
      simp only [ih]
      by_cases hka : k = a
      · subst hka; simp [hma]
      · simp [hka]

@[simp] theorem LockUntilSet_tmp_cache (s : TileCacher) (ks : List Key) :
    (LockUntilSet s ks).1.tmp_cache_ = s.tmp_cache_ := rfl

@[simp] theorem LockUntilSet_get_waiters (s : TileCacher) (ks : List Key) :
    (LockUntilSet s ks).1.get_waiters_ = s.get_waiters_ := rfl

theorem LockUntilSet_set_waiters (s : TileCacher) (ks : List Key) (k : Key) :
    (LockUntilSet s ks).1.set_waiters_ k
      = if s.set_waiters_ k = none ∧ k ∈ ks then some [] else s.set_waiters_ k := by
  simp only [LockUntilSet]
  exact lockLoop_apply ks _ _ _ k

@[simp] theorem Unlock_tmp_cache (ks : List Key) :
    ∀ s : TileCacher, (Unlock s ks).1.tmp_cache_ = s.tmp_cache_ := by
  induction ks with
  | nil => intro s; rfl
  | cons a ks ih =>
    intro s
    unfold Unlock
    cases s.set_waiters_ a <;> simp [ih]

@[simp] theorem Unlock_get_waiters (ks : List Key) :
    ∀ s : TileCacher, (Unlock s ks).1.get_waiters_ = s.get_waiters_ := by
  induction ks with
  | nil => intro s; rfl
  | cons a ks ih =>
    intro s
    unfold Unlock
    cases s.set_waiters_ a <;> simp [ih]

theorem Unlock_set_waiters (ks : List Key) :
    ∀ (s : TileCacher) (k : Key),
      (Unlock s ks).1.set_waiters_ k = if k ∈ ks then none else s.set_waiters_ k := by
  induction ks with
  | nil => intro s k; simp [Unlock]
  | cons a ks ih =>
    intro s k
    unfold Unlock
    cases hsa : s.set_waiters_ a with
    | none =>
      simp only [ih]
      by_cases hka : k = a
      · subst hka; simp [hsa]
      · simp [hka]
    | some ws =>
      simp only [ih]
      by_cases hka : k = a
      · subst hka; simp
      · simp [hka, WaitersMap.erase_other _ hka]

/-! ## Invariants of guarded call sequences -/

/-- A property kept by every guarded call that returns holds after every
guarded sequence of calls that returns. -/
theorem allowed_exec_invariant (guard : TileCacher → Op → Bool) (Inv : TileCacher → Prop)
    (hstep : ∀ s op s1 evs, Inv s → guard s op = true → step s op = .ok (s1, evs) → Inv s1)
    (ops : List Op) :
    ∀ (s s2 : TileCacher) (evs : List Event), Inv s → allowed guard s ops = true →
      exec s ops = .ok (s2, evs) → Inv s2 := by
  induction ops with
  | nil =>
    intro s s2 evs hinv _ hex
    simp only [exec] at hex
    injection hex with hex
    injection hex with h1 _
    exact h1 ▸ hinv
  | cons op ops ih =>
    intro s s2 evs hinv hall hex
    simp only [allowed, Bool.and_eq_true] at hall
    cases hs : step s op with
    | error e => simp [exec, hs] at hex
    | ok r =>
      obtain ⟨s1, evs1⟩ := r
      rw [exec_cons_ok _ _ _ _ _ hs] at hex
      simp only [hs] at hall
      cases he : exec s1 ops with
      | error e => simp [he, Except.map] at hex
      | ok r2 =>
        obtain ⟨s3, evs3⟩ := r2
        simp only [he, Except.map] at hex
        injection hex with hex
        injection hex with h1 _
        subst h1
        exact ih s1 s3 evs3 (hstep s op s1 evs1 hinv hall.1 hs) hall.2 he

theorem exclusive_step (s : TileCacher) (op : Op) (s1 : TileCacher) (evs : List Event)
    (hinv : ∀ k, s.get_waiters_ k = none ∨ s.set_waiters_ k = none)
    (hg : lockGuard s op = true) (hs : step s op = .ok (s1, evs)) :
    ∀ k, s1.get_waiters_ k = none ∨ s1.set_waiters_ k = none := by
  intro k'
  cases op with
  | Get k h =>
    obtain ⟨_, hc⟩ := Get_cases s s1 k h evs hs
    rcases hc with ⟨v, _, rfl, _⟩ | ⟨ws, _, hsw, rfl, _⟩ | ⟨ws, _, hsw, _, rfl, _⟩ |
      ⟨_, hsw, _, rfl, _⟩
    · exact hinv k'
    · by_cases hk : k' = k
      · subst hk
        rcases hinv k' with h1 | h1
        · exact Or.inl h1
        · rw [hsw] at h1; cases h1
      · simpa [WaitersMap.assign_other _ _ hk] using hinv k'
    · by_cases hk : k' = k
      · subst hk; exact Or.inr hsw
      · simpa [WaitersMap.assign_other _ _ hk] using hinv k'
    · by_cases hk : k' = k
      · subst hk; exact Or.inr hsw
      · simpa [WaitersMap.assign_other _ _ hk] using hinv k'
  | Set k t ttl st =>
    obtain ⟨_, v, ws, _, _, rfl, _⟩ := Set_cases s s1 k t ttl st evs hs
    by_cases hk : k' = k
    · subst hk; exact Or.inr (by simp)
    · simpa [WaitersMap.erase_other _ hk] using hinv k'
  | Touch k ttl =>
    obtain ⟨rfl, _⟩ := Touch_cases s s1 k ttl evs hs
    exact hinv k'
  | LockUntilSet ks =>
    simp only [step] at hs
    injection hs with hs
    injection hs with h1 _
    subst h1
    simp only [lockGuard, List.all_eq_true, Option.isNone_iff_eq_none] at hg
    rw [LockUntilSet_get_waiters, LockUntilSet_set_waiters]
    by_cases hin : k' ∈ ks
    · exact Or.inl (hg k' hin)
    · simpa [hin] using hinv k'
  | Unlock ks =>
    simp only [step] at hs
    injection hs with hs
    have h1 : s1 = (Unlock s ks).1 := by rw [hs]
    subst h1
    rw [Unlock_get_waiters, Unlock_set_waiters]
    by_cases hin : k' ∈ ks
    · simp [hin]
    · simpa [hin] using hinv k'
  | OnTileRetrieved k t =>
    simp only [step] at hs
    injection hs with hs
    have h1 : s1 = (OnTileRetrieved s k t).1 := by rw [hs]
    subst h1
    unfold OnTileRetrieved
    cases hgw : s.get_waiters_ k with
    | none => exact hinv k'
    | some ws =>
      by_cases hk : k' = k
      · subst hk; exact Or.inl (by simp)
      · simpa [WaitersMap.erase_other _ hk] using hinv k'
  | OnRetrieveError k =>
    simp only [step] at hs
    injection hs with hs
    have h1 : s1 = (OnRetrieveError s k).1 := by rw [hs]
    subst h1
    unfold OnRetrieveError
    cases hgw : s.get_waiters_ k with
    | none => exact hinv k'
    | some ws =>
      by_cases hk : k' = k
      · subst hk; exact Or.inl (by simp)
      · simpa [WaitersMap.erase_other _ hk] using hinv k'

/-- C4 (as the code has it). Waiter-map exclusivity: in every state reached
from a fresh cacher by a sequence of `Get`, `Set`, `Touch`, `LockUntilSet`,
`Unlock`, `OnTileRetrieved` and `OnRetrieveError` calls in which `LockUntilSet`
is never given a key that has a `get_waiters_` entry at the time of the call, no
key has an entry in both `get_waiters_` and `set_waiters_`. -/
theorem waiter_maps_exclusive (cap : Nat) (ops : List Op) (s : TileCacher) (evs : List Event)
    (hall : allowed lockGuard (init cap) ops = true)
    (hex : exec (init cap) ops = .ok (s, evs)) (k : Key) :
    s.get_waiters_ k = none ∨ s.set_waiters_ k = none :=
  allowed_exec_invariant lockGuard
    (fun s => ∀ k, s.get_waiters_ k = none ∨ s.set_waiters_ k = none)
    exclusive_step ops (init cap) s evs (fun _ => Or.inl rfl) hall hex k

/-- Witness for C4 (as the code has it): a lock taken before the fetch. -/
theorem waiter_maps_exclusive_witness :
    ∃ s evs, exec (init 1) [.LockUntilSet ["a"], .Get "a" 1, .Get "b" 2, .Unlock ["a"]]
        = .ok (s, evs) ∧
      (s.get_waiters_ "b" = none ∨ s.set_waiters_ "b" = none) :=
  ⟨_, _, rfl, waiter_maps_exclusive 1
    [.LockUntilSet ["a"], .Get "a" 1, .Get "b" 2, .Unlock ["a"]] _ _ (by decide) rfl "b"⟩

/-- C4 as stated fails: `LockUntilSet` does not look at `get_waiters_`, so
locking a key whose fetch is in flight leaves the key in both maps. -/
theorem waiter_maps_exclusive_counterexample :
    (exec (init 1) [.Get "k" 1, .LockUntilSet ["k"]]).state.map
        (fun s => (s.get_waiters_ "k", s.set_waiters_ "k"))
      = some (some [1], some []) := by
  decide

theorem peek_Set_none_of_ne (c : LruCache) (k k' : Key) (v : CachedTile) (hk : k' ≠ k)
    (h : c.peek k' = none) : (c.Set k v).peek k' = none := by
  cases hp : (c.Set k v).peek k' with
  | none => rfl
  | some w =>
    have := peek_Set_other c k k' v w hk hp
    rw [h] at this
    cases this

theorem hot_excludes_step (s : TileCacher) (op : Op) (s1 : TileCacher) (evs : List Event)
    (hinv : ∀ k, s.get_waiters_ k ≠ none → s.tmp_cache_.peek k = none)
    (hg : setGuard s op = true) (hs : step s op = .ok (s1, evs)) :
    ∀ k, s1.get_waiters_ k ≠ none → s1.tmp_cache_.peek k = none := by
  intro k'
  cases op with
  | Get k h =>
    obtain ⟨_, hc⟩ := Get_cases s s1 k h evs hs
    rcases hc with ⟨v, _, rfl, _⟩ | ⟨ws, _, _, rfl, _⟩ | ⟨ws, hhot, _, _, rfl, _⟩ |
      ⟨hhot, _, _, rfl, _⟩
    · intro h1
      simpa [peek_Get] using hinv k' h1
    · exact hinv k'
    · by_cases hk : k' = k
      · subst hk; exact fun _ => hhot
      · simpa [WaitersMap.assign_other _ _ hk] using hinv k'
    · by_cases hk : k' = k
      · subst hk; exact fun _ => hhot
      · simpa [WaitersMap.assign_other _ _ hk] using hinv k'
  | Set k t ttl st =>
    obtain ⟨_, v, ws, _, _, rfl, _⟩ := Set_cases s s1 k t ttl st evs hs
    simp only [setGuard, Option.isNone_iff_eq_none] at hg
    intro h1
    by_cases hk : k' = k
    · subst hk; exact absurd hg h1
    · exact peek_Set_none_of_ne _ _ _ _ hk (hinv k' h1)
  | Touch k ttl =>
    obtain ⟨rfl, _⟩ := Touch_cases s s1 k ttl evs hs
    exact hinv k'
  | LockUntilSet ks =>
    simp only [step] at hs
    injection hs with hs
    injection hs with h1 _
    subst h1
    simpa using hinv k'
  | Unlock ks =>
    simp only [step] at hs
    injection hs with hs
    have h1 : s1 = (Unlock s ks).1 := by rw [hs]
    subst h1
    simpa using hinv k'
  | OnTileRetrieved k t =>
    simp only [step] at hs
    injection hs with hs
    have h1 : s1 = (OnTileRetrieved s k t).1 := by rw [hs]
    subst h1
    unfold OnTileRetrieved
    cases hgw : s.get_waiters_ k with
    | none => exact hinv k'
    | some ws =>
      by_cases hk : k' = k
      · subst hk; simp
      · intro h1
        have h2 : s.get_waiters_ k' ≠ none := by
          simpa [WaitersMap.erase_other _ hk] using h1
        cases t with
        | none => exact hinv k' h2
        | some v => exact peek_Set_none_of_ne _ _ _ _ hk (hinv k' h2)
  | OnRetrieveError k =>
    simp only [step] at hs
    injection hs with hs
    have h1 : s1 = (OnRetrieveError s k).1 := by rw [hs]
    subst h1
    unfold OnRetrieveError
    cases hgw : s.get_waiters_ k with
    | none => exact hinv k'
    | some ws =>
      by_cases hk : k' = k
      · subst hk; simp
      · intro h1
        have h2 : s.get_waiters_ k' ≠ none := by
          simpa [WaitersMap.erase_other _ hk] using h1
        exact hinv k' h2

/-- C5 (as the code has it). Hot excludes in-flight: in every state reached
from a fresh cacher by a sequence of public calls and loader callbacks in which
`Set` is never applied to a key that has a `get_waiters_` entry at the time of
the call, a key found in the hot cache has no `get_waiters_` entry. (The publish
of `OnTileRetrieved` erases the get waiters of its key; `Set` erases only the
set waiters.) -/
theorem hot_excludes_in_flight (cap : Nat) (ops : List Op) (s : TileCacher) (evs : List Event)
    (hall : allowed setGuard (init cap) ops = true)
    (hex : exec (init cap) ops = .ok (s, evs)) (k : Key) (v : CachedTile)
    (hhot : s.tmp_cache_.peek k = some v) : s.get_waiters_ k = none := by
  have hinv := allowed_exec_invariant setGuard
    (fun s => ∀ k, s.get_waiters_ k ≠ none → s.tmp_cache_.peek k = none)
    hot_excludes_step ops (init cap) s evs (fun _ h => absurd rfl h) hall hex k
  by_contra hne
  rw [hinv hne] at hhot
  cases hhot

/-- Witness for C5 (as the code has it): a fetch published by the loader. -/
theorem hot_excludes_in_flight_witness :
    ∃ s evs, exec (init 1) [.Get "k" 1, .Get "k" 2, .OnTileRetrieved "k" (some 7)]
        = .ok (s, evs) ∧
      s.tmp_cache_.peek "k" = some 7 ∧ s.get_waiters_ "k" = none :=
  ⟨_, _, rfl, by decide, hot_excludes_in_flight 1
    [.Get "k" 1, .Get "k" 2, .OnTileRetrieved "k" (some 7)] _ _ (by decide) rfl "k" 7
    (by decide)⟩

/-- C5 as stated fails: `Set` publishes into the hot cache without touching
`get_waiters_`, so a key locked while its fetch is in flight and then set is in
the hot cache and still has its get waiters. -/
theorem hot_excludes_in_flight_counterexample :
    (exec (init 1) [.Get "k" 1, .LockUntilSet ["k"], .Set "k" (some 7) 60 none]).state.map
        (fun s => (s.tmp_cache_.peek "k", s.get_waiters_ "k"))
      = some (some 7, some [1]) := by
  decide

/-! ## Invariants that mention the history of calls -/

theorem exec_snoc (ops : List Op) (op : Op) :
    ∀ (s0 s1 : TileCacher) (e : List Event), exec s0 (ops ++ [op]) = .ok (s1, e) →
      ∃ s evs evs1, exec s0 ops = .ok (s, evs) ∧ step s op = .ok (s1, evs1) ∧
        e = evs ++ evs1 := by
  induction ops with
  | nil =>
    intro s0 s1 e h
    cases hs : step s0 op with
    | error x => simp [exec, hs] at h
    | ok r =>
      obtain ⟨t, ev⟩ := r
      simp only [List.nil_append, exec, hs, List.append_nil] at h
      injection h with h
      injection h with h1 h2
      exact ⟨s0, [], ev, rfl, by rw [← h1]; exact hs, by simpa using h2.symm⟩
  | cons o ops ih =>
    intro s0 s1 e h
    cases hs : step s0 o with
    | error x => simp [exec, hs] at h
    | ok r =>
      obtain ⟨t, ev⟩ := r
      rw [List.cons_append, exec_cons_ok _ _ _ _ _ hs] at h
      cases he : exec t (ops ++ [op]) with
      | error x => simp [he, Except.map] at h
      | ok r2 =>
        obtain ⟨t2, ev2⟩ := r2
        simp only [he, Except.map] at h
        injection h with h
        injection h with h1 h2
        obtain ⟨s, evs, evs1, hx, hy, hz⟩ := ih t t2 ev2 he
        refine ⟨s, ev ++ evs, evs1, ?_, ?_, ?_⟩
        · rw [exec_cons_ok _ _ _ _ _ hs, hx]; rfl
        · rw [← h1]; exact hy
        · rw [← h2, hz, List.append_assoc]

/-- A property of (calls made, state, events emitted) that holds initially and
is kept by every returning call holds after every returning sequence. -/
theorem exec_history_invariant (s0 : TileCacher)
    (Inv : List Op → TileCacher → List Event → Prop) (h0 : Inv [] s0 [])
    (hstep : ∀ ops s evs op s1 evs1, exec s0 ops = .ok (s, evs) → Inv ops s evs →
      step s op = .ok (s1, evs1) → Inv (ops ++ [op]) s1 (evs ++ evs1))
    (ops : List Op) :
    ∀ (s : TileCacher) (evs : List Event), exec s0 ops = .ok (s, evs) → Inv ops s evs := by
  induction ops using List.reverseRecOn with
  | nil =>
    intro s evs h
    simp only [exec] at h
    injection h with h
    injection h with h1 h2
    rw [← h1, ← h2]
    exact h0
  | append_singleton ops op ih =>
    intro s1 e h
    obtain ⟨s, evs, evs1, hx, hy, hz⟩ := exec_snoc ops op s0 s1 e h
    rw [hz]
    exact hstep ops s evs op s1 evs1 hx (ih s evs hx) hy

theorem accepted_append (ops ops' : List Op) :
    accepted (ops ++ ops') = accepted ops ++ accepted ops' := by
  induction ops with
  | nil => rfl
  | cons o ops ih => cases o <;> simp [accepted, ih]

theorem settled_append (evs evs' : List Event) :
    settled (evs ++ evs') = settled evs ++ settled evs' := by
  simp [settled, List.filterMap_append]

@[simp] theorem settled_map_NotifyError (ws : waiters_vec_t) :
    settled (ws.map Event.NotifyError) = ws := by
  induction ws with
  | nil => rfl
  | cons a ws ih =>
    simp only [settled, List.map_cons, List.filterMap_cons, Event.settles] at ih ⊢
    rw [ih]

@[simp] theorem settled_map_SetResult (ws : waiters_vec_t) (t : Option CachedTile) :
    settled (ws.map (fun g => Event.SetResult g t)) = ws := by
  induction ws with
  | nil => rfl
  | cons a ws ih =>
    simp only [settled, List.map_cons, List.filterMap_cons, Event.settles] at ih ⊢
    rw [ih]

theorem Tracked.congr {a a' : Prop} {c c' : Nat} {w w' : Key → Nat} (h : Tracked a c w)
    (ha : a ↔ a') (hc : c = c') (hw : ∀ k, w' k = w k) : Tracked a' c' w' := by
  have : w' = w := funext hw
  subst hc
  subst this
  exact ⟨fun n => h.1 (fun x => n (ha.1 x)), fun x => h.2 (ha.2 x)⟩

/-- Removing `n` occurrences of the task from the lists of one key while
settling it `n` times keeps the book-keeping. -/
theorem Tracked.drain {a : Prop} {c : Nat} {w w' : Key → Nat} (h : Tracked a c w) (k : Key)
    (n : Nat) (hk : w' k + n = w k) (ho : ∀ k', k' ≠ k → w' k' = w k') :
    Tracked a (c + n) w' := by
  have key : ∀ k', w k' = 0 → w' k' = 0 := by
    intro k' h0
    by_cases e : k' = k
    · subst e; omega
    · rw [ho k' e]; exact h0
  refine ⟨fun na => ?_, fun ha => ?_⟩
  · obtain ⟨hc, hw⟩ := h.1 na
    have := hw k
    exact ⟨by omega, fun k' => key k' (hw k')⟩
  · rcases h.2 ha with ⟨hc, hw⟩ | ⟨hc, k0, h1, hoth⟩
    · have := hw k
      exact Or.inl ⟨by omega, fun k' => key k' (hw k')⟩
    · by_cases e : k0 = k
      · subst e
        by_cases hn : n = 0
        · refine Or.inr ⟨by omega, k0, by omega, fun k' hk' => key k' (hoth k' hk')⟩
        · refine Or.inl ⟨by omega, fun k' => ?_⟩
          by_cases e' : k' = k0
          · subst e'; omega
          · exact key k' (hoth k' e')
      · have hk0 : w k = 0 := hoth k (fun x => e x.symm)
        refine Or.inr ⟨by omega, k0, by rw [ho k0 e]; exact h1, fun k' hk' => key k' (hoth k' hk')⟩

theorem Tracked.accept_settle {c : Nat} {w : Key → Nat} (h : Tracked False c w) :
    Tracked True (c + 1) w := by
  obtain ⟨hc, hw⟩ := h.1 (fun x => x)
  exact ⟨fun n => absurd trivial n, fun _ => Or.inl ⟨by omega, hw⟩⟩

theorem Tracked.accept_wait {c : Nat} {w w' : Key → Nat} (h : Tracked False c w) (k : Key)
    (hk : w' k = w k + 1) (ho : ∀ k', k' ≠ k → w' k' = w k') : Tracked True c w' := by
  obtain ⟨hc, hw⟩ := h.1 (fun x => x)
  refine ⟨fun n => absurd trivial n, fun _ => Or.inr ⟨hc, k, ?_, fun k' hk' => ?_⟩⟩
  · rw [hk, hw k]
  · rw [ho k' hk', hw k']

/-! ## Effect of the calls on the occurrence counts -/

theorem waitCount_erase_set (s : TileCacher) (h : Handle) (k : Key) (ws : waiters_vec_t)
    (c : LruCache) (hsw : s.set_waiters_ k = some ws) :
    (waitCount { s with tmp_cache_ := c, set_waiters_ := s.set_waiters_.erase k } h k
        + ws.count h = waitCount s h k) ∧
    ∀ k', k' ≠ k →
      waitCount { s with tmp_cache_ := c, set_waiters_ := s.set_waiters_.erase k } h k'
        = waitCount s h k' := by
  refine ⟨by simp [waitCount, hsw], fun k' hk' => ?_⟩
  simp [waitCount, WaitersMap.erase_other _ hk']

theorem waitCount_erase_get (s : TileCacher) (h : Handle) (k : Key) (ws : waiters_vec_t)
    (c : LruCache) (hgw : s.get_waiters_ k = some ws) :
    (waitCount { s with tmp_cache_ := c, get_waiters_ := s.get_waiters_.erase k } h k
        + ws.count h = waitCount s h k) ∧
    ∀ k', k' ≠ k →
      waitCount { s with tmp_cache_ := c, get_waiters_ := s.get_waiters_.erase k } h k'
        = waitCount s h k' := by
  refine ⟨by simp [waitCount, hgw]; omega, fun k' hk' => ?_⟩
  simp [waitCount, WaitersMap.erase_other _ hk']

theorem waitCount_push_set (s : TileCacher) (h h0 : Handle) (k : Key) (ws : waiters_vec_t)
    (hsw : s.set_waiters_ k = some ws) :
    (waitCount { s with set_waiters_ := s.set_waiters_.assign k (ws ++ [h0]) } h k
        = waitCount s h k + [h0].count h) ∧
    ∀ k', k' ≠ k →
      waitCount { s with set_waiters_ := s.set_waiters_.assign k (ws ++ [h0]) } h k'
        = waitCount s h k' := by
  refine ⟨by simp [waitCount, hsw]; omega, fun k' hk' => ?_⟩
  simp [waitCount, WaitersMap.assign_other _ _ hk']

theorem waitCount_push_get (s : TileCacher) (h h0 : Handle) (k : Key) (ws : waiters_vec_t)
    (hgw : (s.get_waiters_ k).getD [] = ws) :
    (waitCount { s with get_waiters_ := s.get_waiters_.assign k (ws ++ [h0]) } h k
        = waitCount s h k + [h0].count h) ∧
    ∀ k', k' ≠ k →
      waitCount { s with get_waiters_ := s.get_waiters_.assign k (ws ++ [h0]) } h k'
        = waitCount s h k' := by
  refine ⟨by simp [waitCount, hgw]; omega, fun k' hk' => ?_⟩
  simp [waitCount, WaitersMap.assign_other _ _ hk']

theorem waitCount_LockUntilSet (s : TileCacher) (ks : List Key) (h : Handle) (k : Key) :
    waitCount (LockUntilSet s ks).1 h k = waitCount s h k := by
  unfold waitCount
  rw [LockUntilSet_get_waiters, LockUntilSet_set_waiters]
  by_cases hc : s.set_waiters_ k = none ∧ k ∈ ks
  · simp [hc]
  · rw [if_neg hc]

/-- `Unlock` keeps the book-keeping of every task. -/
theorem Tracked_Unlock (a : Prop) (h : Handle) (ks : List Key) :
    ∀ (s : TileCacher) (c : Nat), Tracked a c (waitCount s h) →
      Tracked a (c + (settled (Unlock s ks).2).count h) (waitCount (Unlock s ks).1 h) := by
  induction ks with
  | nil => intro s c ht; simpa [Unlock, settled] using ht
  | cons k ks ih =>
    intro s c ht
    unfold Unlock
    cases hsw : s.set_waiters_ k with
    | none => exact ih s c ht
    | some ws =>
      obtain ⟨e1, e2⟩ := waitCount_erase_set s h k ws s.tmp_cache_ hsw
      have h1 := ih _ _ (ht.drain k (ws.count h) e1 e2)
      refine h1.congr Iff.rfl ?_ (fun _ => rfl)
      simp only [settled_append, settled_map_NotifyError, List.count_append]
      omega

theorem settled_count_snoc (evs evs1 : List Event) (h : Handle) :
    (settled (evs ++ evs1)).count h = (settled evs).count h + (settled evs1).count h := by
  rw [settled_append, List.count_append]

/-- Every returning call keeps the book-keeping of every task, provided the
tasks handed to `Get` so far, this call included, are pairwise distinct. -/
theorem tracked_step (ops : List Op) (s : TileCacher) (evs : List Event) (op : Op)
    (s1 : TileCacher) (evs1 : List Event) (hnd : (accepted (ops ++ [op])).Nodup)
    (hinv : ∀ h, Tracked (h ∈ accepted ops) ((settled evs).count h) (waitCount s h))
    (hs : step s op = .ok (s1, evs1)) :
    ∀ h, Tracked (h ∈ accepted (ops ++ [op])) ((settled (evs ++ evs1)).count h)
      (waitCount s1 h) := by
  intro h
  rw [settled_count_snoc]
  rw [accepted_append] at hnd ⊢
  have ht := hinv h
  cases op with
  | Get k h0 =>
    have hfresh : h0 ∉ accepted ops := by
      intro hin
      have := List.nodup_append.1 hnd
      exact this.2.2 hin (by simp [accepted])
    obtain ⟨_, hc⟩ := Get_cases s s1 k h0 evs1 hs
    by_cases hh : h = h0
    · subst hh
      have hF : Tracked False ((settled evs).count h) (waitCount s h) :=
        ht.congr ⟨fun x => hfresh x, False.elim⟩ rfl (fun _ => rfl)
      have hin : True ↔ h ∈ accepted ops ++ accepted [Op.Get k h] := by
        simp [accepted]
      rcases hc with ⟨v, _, rfl, rfl⟩ | ⟨ws, _, hsw, rfl, rfl⟩ | ⟨ws, _, _, hgw, rfl, rfl⟩ |
        ⟨_, _, hgw, rfl, rfl⟩
      · exact hF.accept_settle.congr hin (by simp [settled, Event.settles]) (fun _ => rfl)
      · obtain ⟨e1, e2⟩ := waitCount_push_set s h h k ws hsw
        exact (hF.accept_wait k (by simpa using e1) e2).congr hin (by simp [settled])
          (fun _ => rfl)
      · obtain ⟨e1, e2⟩ := waitCount_push_get s h h k ws (by simp [hgw])
        exact (hF.accept_wait k (by simpa using e1) e2).congr hin (by simp [settled])
          (fun _ => rfl)
      · obtain ⟨e1, e2⟩ := waitCount_push_get s h h k [] (by simp [hgw])
        exact (hF.accept_wait k (by simpa using e1) e2).congr hin
          (by simp [settled, Event.settles]) (fun _ => rfl)
    · have hin : h ∈ accepted ops ↔ h ∈ accepted ops ++ accepted [Op.Get k h0] := by
        simp [accepted, hh]
      have hcount : [h0].count h = 0 := by
        simp [List.count_eq_zero]
        exact fun x => hh x
      rcases hc with ⟨v, _, rfl, rfl⟩ | ⟨ws, _, hsw, rfl, rfl⟩ | ⟨ws, _, _, hgw, rfl, rfl⟩ |
        ⟨_, _, hgw, rfl, rfl⟩
      · refine ht.congr hin ?_ (fun _ => rfl)
        simp [settled, Event.settles, hcount]
      · obtain ⟨e1, e2⟩ := waitCount_push_set s h h0 k ws hsw
        refine ht.congr hin (by simp [settled]) (fun k' => ?_)
        by_cases hk : k' = k
        · subst hk; rw [e1, hcount]; rfl
        · exact e2 k' hk
      · obtain ⟨e1, e2⟩ := waitCount_push_get s h h0 k ws (by simp [hgw])
        refine ht.congr hin (by simp [settled]) (fun k' => ?_)
        by_cases hk : k' = k
        · subst hk; rw [e1, hcount]; rfl
        · exact e2 k' hk
      · obtain ⟨e1, e2⟩ := waitCount_push_get s h h0 k [] (by simp [hgw])
        refine ht.congr hin (by simp [settled, Event.settles]) (fun k' => ?_)
        by_cases hk : k' = k
        · subst hk
          have := e1
          simp only [List.nil_append] at this
          rw [this, hcount]; rfl
        · have := e2 k' hk
          simpa using this
  | Set k t ttl st =>
    obtain ⟨_, v, ws, _, hsw, rfl, rfl⟩ := Set_cases s s1 k t ttl st evs1 hs
    obtain ⟨e1, e2⟩ := waitCount_erase_set s h k ws (s.tmp_cache_.Set k v) hsw
    refine (ht.drain k (ws.count h) e1 e2).congr (by simp [accepted]) ?_ (fun _ => rfl)
    rw [settled_append, settled_map_SetResult]
    simp [settled, Event.settles]
  | Touch k ttl =>
    obtain ⟨rfl, rfl⟩ := Touch_cases s s1 k ttl evs1 hs
    exact ht.congr (by simp [accepted]) (by simp [settled, Event.settles]) (fun _ => rfl)
  | LockUntilSet ks =>
    simp only [step] at hs
    injection hs with hs
    injection hs with h1 h2
    subst h1
    subst h2
    exact ht.congr (by simp [accepted]) (by simp [settled])
      (fun k' => waitCount_LockUntilSet s ks h k')
  | Unlock ks =>
    simp only [step] at hs
    injection hs with hs
    have h1 : s1 = (Unlock s ks).1 := by rw [hs]
    have h2 : evs1 = (Unlock s ks).2 := by rw [hs]
    subst h1
    subst h2
    exact (Tracked_Unlock _ h ks s _ ht).congr (by simp [accepted]) rfl (fun _ => rfl)
  | OnTileRetrieved k t =>
    simp only [step] at hs
    injection hs with hs
    have h1 : s1 = (OnTileRetrieved s k t).1 := by rw [hs]
    have h2 : evs1 = (OnTileRetrieved s k t).2 := by rw [hs]
    subst h1
    subst h2
    unfold OnTileRetrieved
    cases hgw : s.get_waiters_ k with
    | none => exact ht.congr (by simp [accepted]) (by simp [settled]) (fun _ => rfl)
    | some ws =>
      obtain ⟨e1, e2⟩ := waitCount_erase_get s h k ws
        (match t with
          | some tile => s.tmp_cache_.Set k tile
          | none => s.tmp_cache_) hgw
      exact (ht.drain k (ws.count h) e1 e2).congr (by simp [accepted]) (by simp)
        (fun _ => rfl)
  | OnRetrieveError k =>
    simp only [step] at hs
    injection hs with hs
    have h1 : s1 = (OnRetrieveError s k).1 := by rw [hs]
    have h2 : evs1 = (OnRetrieveError s k).2 := by rw [hs]
    subst h1
    subst h2
    unfold OnRetrieveError
    cases hgw : s.get_waiters_ k with
    | none => exact ht.congr (by simp [accepted]) (by simp [settled]) (fun _ => rfl)
    | some ws =>
      obtain ⟨e1, e2⟩ := waitCount_erase_get s h k ws s.tmp_cache_ hgw
      exact (ht.drain k (ws.count h) e1 e2).congr (by simp [accepted]) (by simp)
        (fun _ => rfl)

theorem tracked_exec (cap : Nat) (ops : List Op) (s : TileCacher) (evs : List Event)
    (hfresh : (accepted ops).Nodup) (hex : exec (init cap) ops = .ok (s, evs)) (h : Handle) :
    Tracked (h ∈ accepted ops) ((settled evs).count h) (waitCount s h) := by
  refine exec_history_invariant (init cap)
    (fun ops s evs => (accepted ops).Nodup →
      ∀ h, Tracked (h ∈ accepted ops) ((settled evs).count h) (waitCount s h))
    ?_ ?_ ops s evs hex hfresh h
  · intro _ h
    exact ⟨fun _ => ⟨rfl, fun _ => rfl⟩, fun hin => by simp [accepted] at hin⟩
  · intro ops s evs op s1 evs1 _ hinv hs hnd
    have hnd0 : (accepted ops).Nodup := by
      rw [accepted_append] at hnd
      exact hnd.of_append_left
    exact tracked_step ops s evs op s1 evs1 hnd (hinv hnd0) hs

/-- C7. Single settlement: after any sequence of calls on a fresh cacher that
hands pairwise distinct tasks to `Get`, no task has been settled (`SetResult` or
`NotifyError`) more than once, only tasks handed to `Get` have been settled, and
a task handed to `Get` is unsettled exactly when it occurs once in the waiter
lists of exactly one key (in one of `get_waiters_`, `set_waiters_`) and in no
waiter list of any other key. -/
theorem single_settlement (cap : Nat) (ops : List Op) (s : TileCacher) (evs : List Event)
    (hfresh : (accepted ops).Nodup) (hex : exec (init cap) ops = .ok (s, evs)) (h : Handle) :
    (settled evs).count h ≤ 1 ∧
    (h ∈ settled evs → h ∈ accepted ops) ∧
    (h ∈ accepted ops →
      (h ∉ settled evs ↔
        ∃ k, waitCount s h k = 1 ∧ ∀ k', k' ≠ k → waitCount s h k' = 0)) := by
  have ht := tracked_exec cap ops s evs hfresh hex h
  refine ⟨?_, ?_, ?_⟩
  · by_cases ha : h ∈ accepted ops
    · rcases ht.2 ha with ⟨hc, _⟩ | ⟨hc, _⟩ <;> omega
    · have := (ht.1 ha).1
      omega
  · intro hin
    by_contra ha
    have := (ht.1 ha).1
    exact (List.count_eq_zero.1 this) hin
  · intro ha
    rcases ht.2 ha with ⟨hc, hw⟩ | ⟨hc, hw⟩
    · constructor
      · intro hn
        rw [List.count_eq_zero.2 hn] at hc
        cases hc
      · rintro ⟨k, h1, _⟩
        rw [hw k] at h1
        cases h1
    · exact ⟨fun _ => hw, fun _ => List.count_eq_zero.1 hc⟩

/-- Witness for C7: two tasks failed by the loader, a third still waiting. -/
theorem single_settlement_witness :
    ∃ s evs, exec (init 1) [.Get "a" 1, .Get "a" 2, .OnRetrieveError "a", .Get "a" 3]
        = .ok (s, evs) ∧
      ((settled evs).count 3 ≤ 1 ∧
      (3 ∈ settled evs → 3 ∈ accepted [.Get "a" 1, .Get "a" 2, .OnRetrieveError "a", .Get "a" 3]) ∧
      (3 ∈ accepted [.Get "a" 1, .Get "a" 2, .OnRetrieveError "a", .Get "a" 3] →
        (3 ∉ settled evs ↔
          ∃ k, waitCount s 3 k = 1 ∧ ∀ k', k' ≠ k → waitCount s 3 k' = 0))) :=
  ⟨_, _, rfl, single_settlement 1
    [.Get "a" 1, .Get "a" 2, .OnRetrieveError "a", .Get "a" 3] _ _ (by decide) rfl 3⟩

/-! ## Order of the waiter lists -/

theorem registered_append (k : Key) (ops ops' : List Op) :
    registered k (ops ++ ops') = registered k ops ++ registered k ops' := by
  induction ops with
  | nil => rfl
  | cons o ops ih =>
    cases o with
    | Get k0 h =>
      by_cases hk : k0 = k
      · simp [registered, hk, ih]
      · simp [registered, hk, ih]
    | _ => simp [registered, ih]

theorem InOrder.snoc {m : WaitersMap} {ops : List Op} (h : InOrder m ops) (op : Op) :
    InOrder m (ops ++ [op]) := by
  intro k ws hk
  rw [registered_append]
  exact (h k ws hk).trans (List.sublist_append_left _ _)

theorem InOrder.erase {m : WaitersMap} {ops : List Op} (h : InOrder m ops) (k0 : Key) :
    InOrder (m.erase k0) ops := by
  intro k ws hk
  by_cases e : k = k0
  · subst e; simp at hk
  · rw [WaitersMap.erase_other _ e] at hk
    exact h k ws hk

theorem InOrder.push {m : WaitersMap} {ops : List Op} (h : InOrder m ops) (k0 : Key)
    (h0 : Handle) (ws0 : waiters_vec_t) (hws : (m k0).getD [] = ws0) :
    InOrder (m.assign k0 (ws0 ++ [h0])) (ops ++ [Op.Get k0 h0]) := by
  intro k ws hk
  by_cases e : k = k0
  · subst e
    simp only [WaitersMap.assign_same, Option.some.injEq] at hk
    subst hk
    rw [registered_append]
    have h1 : ws0.Sublist (registered k ops) := by
      cases hm : m k with
      | none =>
        rw [hm] at hws
        simp only [Option.getD_none] at hws
        subst hws
        exact List.nil_sublist _
      | some l =>
        rw [hm] at hws
        simp only [Option.getD_some] at hws
        subst hws
        exact h k _ hm
    have h2 : [h0].Sublist (registered k [Op.Get k h0]) := by
      simp [registered]
    exact h1.append h2
  · rw [WaitersMap.assign_other _ _ e] at hk
    exact h.snoc _ k ws hk

theorem inOrder_step (ops : List Op) (s : TileCacher) (op : Op) (s1 : TileCacher)
    (evs1 : List Event)
    (hinv : InOrder s.get_waiters_ ops ∧ InOrder s.set_waiters_ ops)
    (hs : step s op = .ok (s1, evs1)) :
    InOrder s1.get_waiters_ (ops ++ [op]) ∧ InOrder s1.set_waiters_ (ops ++ [op]) := by
  obtain ⟨hg, hw⟩ := hinv
  cases op with
  | Get k h0 =>
    obtain ⟨_, hc⟩ := Get_cases s s1 k h0 evs1 hs
    rcases hc with ⟨v, _, rfl, _⟩ | ⟨ws, _, hsw, rfl, _⟩ | ⟨ws, _, _, hgw, rfl, _⟩ |
      ⟨_, _, hgw, rfl, _⟩
    · exact ⟨hg.snoc _, hw.snoc _⟩
    · exact ⟨hg.snoc _, hw.push k h0 ws (by simp [hsw])⟩
    · exact ⟨hg.push k h0 ws (by simp [hgw]), hw.snoc _⟩
    · exact ⟨hg.push k h0 [] (by simp [hgw]), hw.snoc _⟩
  | Set k t ttl st =>
    obtain ⟨_, v, ws, _, _, rfl, _⟩ := Set_cases s s1 k t ttl st evs1 hs
    exact ⟨hg.snoc _, (hw.erase k).snoc _⟩
  | Touch k ttl =>
    obtain ⟨rfl, _⟩ := Touch_cases s s1 k ttl evs1 hs
    exact ⟨hg.snoc _, hw.snoc _⟩
  | LockUntilSet ks =>
    simp only [step] at hs
    injection hs with hs
    injection hs with h1 _
    subst h1
    refine ⟨hg.snoc _, ?_⟩
    intro k ws hk
    rw [LockUntilSet_set_waiters] at hk
    by_cases hc : s.set_waiters_ k = none ∧ k ∈ ks
    · rw [if_pos hc] at hk
      injection hk with hk
      subst hk
      exact List.nil_sublist _
    · rw [if_neg hc] at hk
      exact hw.snoc _ k ws hk
  | Unlock ks =>
    simp only [step] at hs
    injection hs with hs
    have h1 : s1 = (Unlock s ks).1 := by rw [hs]
    subst h1
    rw [Unlock_get_waiters]
    refine ⟨hg.snoc _, ?_⟩
    intro k ws hk
    rw [Unlock_set_waiters] at hk
    by_cases hc : k ∈ ks
    · rw [if_pos hc] at hk; cases hk
    · rw [if_neg hc] at hk
      exact hw.snoc _ k ws hk
  | OnTileRetrieved k t =>
    simp only [step] at hs
    injection hs with hs
    have h1 : s1 = (OnTileRetrieved s k t).1 := by rw [hs]
    subst h1
    unfold OnTileRetrieved
    cases hgw : s.get_waiters_ k with
    | none => exact ⟨hg.snoc _, hw.snoc _⟩
    | some ws => exact ⟨(hg.erase k).snoc _, hw.snoc _⟩
  | OnRetrieveError k =>
    simp only [step] at hs
    injection hs with hs
    have h1 : s1 = (OnRetrieveError s k).1 := by rw [hs]
    subst h1
    unfold OnRetrieveError
    cases hgw : s.get_waiters_ k with
    | none => exact ⟨hg.snoc _, hw.snoc _⟩
    | some ws => exact ⟨(hg.erase k).snoc _, hw.snoc _⟩

/-- C8. FIFO fan-out: after any sequence of calls on a fresh cacher, the waiter
list stored for a key `k` (in `get_waiters_` or in `set_waiters_`) lists its
tasks in the order of their `Get(k, ·)` calls, and each call that drains the
list settles its tasks in list order: `OnTileRetrieved` and `OnRetrieveError`
for the get waiters, `Set` and `Unlock` for the set waiters. -/
theorem fifo_fan_out (cap : Nat) (ops : List Op) (s : TileCacher) (evs : List Event)
    (hex : exec (init cap) ops = .ok (s, evs)) (k : Key) (ws : waiters_vec_t) :
    (s.get_waiters_ k = some ws →
      ws.Sublist (registered k ops) ∧
      (∀ t, (OnTileRetrieved s k t).2 = ws.map (fun h => Event.SetResult h t)) ∧
      (OnRetrieveError s k).2 = ws.map Event.NotifyError) ∧
    (s.set_waiters_ k = some ws →
      ws.Sublist (registered k ops) ∧
      (∀ v ttl st, k ≠ "" → (Set s k (some v) ttl st).events
        = some (ws.map (fun h => Event.SetResult h (some v)) ++ [.SetImpl k v ttl])) ∧
      (∀ ks, (Unlock s (k :: ks)).2 = ws.map Event.NotifyError
        ++ (Unlock { s with set_waiters_ := s.set_waiters_.erase k } ks).2)) := by
  have hinv := exec_history_invariant (init cap)
    (fun ops s _ => InOrder s.get_waiters_ ops ∧ InOrder s.set_waiters_ ops)
    ⟨fun _ _ h => by simp [init] at h, fun _ _ h => by simp [init] at h⟩
    (fun ops s _ op s1 evs1 _ hi hs => inOrder_step ops s op s1 evs1 hi hs) ops s evs hex
  refine ⟨fun hgw => ⟨hinv.1 k ws hgw, fun t => ?_, ?_⟩,
    fun hsw => ⟨hinv.2 k ws hsw, fun v ttl st hk => ?_, fun ks => ?_⟩⟩
  · simp [OnTileRetrieved, hgw]
  · simp [OnRetrieveError, hgw]
  · rw [Set_held s k v ttl st ws hk hsw]
    rfl
  · simp [Unlock, hsw]

/-- Witness for C8: three waiters on an in-flight key, registered as 4, 9, 6. -/
theorem fifo_fan_out_witness :
    ∃ s evs, exec (init 1) [.Get "k" 4, .Get "k" 9, .Get "j" 5, .Get "k" 6] = .ok (s, evs) ∧
      s.get_waiters_ "k" = some [4, 9, 6] ∧
      [4, 9, 6].Sublist (registered "k" [.Get "k" 4, .Get "k" 9, .Get "j" 5, .Get "k" 6]) ∧
      (∀ t, (OnTileRetrieved s "k" t).2 = [4, 9, 6].map (fun h => Event.SetResult h t)) ∧
      (OnRetrieveError s "k").2 = [4, 9, 6].map Event.NotifyError :=
  ⟨_, _, rfl, by decide,
    (fifo_fan_out 1 [.Get "k" 4, .Get "k" 9, .Get "j" 5, .Get "k" 6] _ _ rfl "k" [4, 9, 6]).1
      (by decide)⟩

/-! ## Result of `LockUntilSet` -/

/-- The loop appends to `locked_keys` the keys of `ks` without an entry, each
once and in the order of `ks`, and raises `locked` exactly when it appends. -/
theorem lockLoop_keys (ks : List Key) :
    ∀ (m : WaitersMap) (b : Bool) (lk : List Key),
      ∃ new, (lockLoop m b lk ks).2.2 = lk ++ new ∧ new.Nodup ∧ new.Sublist ks ∧
        (∀ k, k ∈ new ↔ k ∈ ks ∧ m k = none) ∧
        (lockLoop m b lk ks).2.1 = (b || !new.isEmpty) := by
  induction ks with
  | nil =>
    intro m b lk
    exact ⟨[], by simp [lockLoop], List.nodup_nil, List.Sublist.slnil, by simp, by simp [lockLoop]⟩
  | cons a ks ih =>
    intro m b lk
    unfold lockLoop
    cases hma : m a with
    | none =>
      obtain ⟨new, h1, h2, h3, h4, h5⟩ := ih (m.assign a []) true (lk ++ [a])
      have ha : a ∉ new := fun hin => by
        have := (h4 a).1 hin
        simp at this
      refine ⟨a :: new, by simp [h1], List.nodup_cons.2 ⟨ha, h2⟩, h3.cons₂ a, ?_, ?_⟩
      · intro k
        by_cases hka : k = a
        · subst hka; simp [hma]
        · simp [h4, hka, WaitersMap.assign_other _ _ hka]
      · simp [h5]
    | some ws =>
      obtain ⟨new, h1, h2, h3, h4, h5⟩ := ih m b lk
      refine ⟨new, h1, h2, h3.cons a, ?_, h5⟩
      intro k
      by_cases hka : k = a
      · subst hka; simp [h4, hma]
      · simp [h4, hka]

/-- C9. Result of `LockUntilSet(ks)`, for every state and key list (empty or
with repeated keys allowed): it returns `nullptr` exactly when every key of `ks`
already had a `set_waiters_` entry; otherwise the lock owns exactly the keys of
`ks` that had no entry, each once and in input order, and each of them now has
an empty waiter list. Entries present before the call are unchanged, as are the
entries of keys outside `ks`, the hot cache and `get_waiters_`. -/
theorem lockUntilSet_result (s : TileCacher) (ks : List Key) :
    ((LockUntilSet s ks).2 = none ↔ ∀ k, k ∈ ks → s.set_waiters_ k ≠ none) ∧
    (∀ lk, (LockUntilSet s ks).2 = some lk →
      lk.Nodup ∧ lk.Sublist ks ∧ (∀ k, k ∈ lk ↔ k ∈ ks ∧ s.set_waiters_ k = none) ∧
      ∀ k, k ∈ lk → (LockUntilSet s ks).1.set_waiters_ k = some []) ∧
    (∀ k, s.set_waiters_ k ≠ none →
      (LockUntilSet s ks).1.set_waiters_ k = s.set_waiters_ k) ∧
    (∀ k, k ∉ ks → (LockUntilSet s ks).1.set_waiters_ k = s.set_waiters_ k) ∧
    (LockUntilSet s ks).1.tmp_cache_ = s.tmp_cache_ ∧
    (LockUntilSet s ks).1.get_waiters_ = s.get_waiters_ := by
  obtain ⟨new, h1, h2, h3, h4, h5⟩ := lockLoop_keys ks s.set_waiters_ false []
  simp only [List.nil_append, Bool.false_or] at h1 h5
  have hret : (LockUntilSet s ks).2 = if new.isEmpty then none else some new := by
    simp only [LockUntilSet, h5, h1]
    cases new <;> rfl
  refine ⟨?_, ?_, ?_, ?_, rfl, rfl⟩
  · rw [hret]
    cases new with
    | nil =>
      simp only [List.isEmpty_nil, if_true, true_iff]
      intro k hk hnone
      have := (h4 k).2 ⟨hk, hnone⟩
      simp at this
    | cons a new =>
      have hmem := (h4 a).1 (List.mem_cons_self a new)
      exact ⟨fun h => by simp at h, fun hall => absurd hmem.2 (hall a hmem.1)⟩
  · intro lk hlk
    rw [hret] at hlk
    cases new with
    | nil => simp at hlk
    | cons a new =>
      simp only [List.isEmpty_cons, Bool.false_eq_true, if_false, Option.some.injEq] at hlk
      subst hlk
      refine ⟨h2, h3, h4, fun k hk => ?_⟩
      rw [LockUntilSet_set_waiters]
      have := (h4 k).1 hk
      rw [if_pos ⟨this.2, this.1⟩]
  · intro k hk
    rw [LockUntilSet_set_waiters]
    rw [if_neg (fun h => hk h.1)]
  · intro k hk
    rw [LockUntilSet_set_waiters]
    rw [if_neg (fun h => hk h.2)]

/-! ## `Unlock` twice, and locking again -/

theorem Unlock_of_absent (ks : List Key) (s : TileCacher)
    (h : ∀ k, k ∈ ks → s.set_waiters_ k = none) : Unlock s ks = (s, []) := by
  induction ks with
  | nil => rfl
  | cons a ks ih =>
    unfold Unlock
    rw [h a (List.mem_cons_self a ks)]
    exact ih (fun k hk => h k (List.mem_cons_of_mem a hk))

/-- C10. `Unlock` is idempotent: for every state and key list, a second
`Unlock(ks)` right after the first changes nothing and settles nothing, so the
two calls together give the state and the settlements of the first alone; the
same holds for a first `Unlock` of keys that were never locked. And a key that
is not locked can be locked, unlocked and locked again, `LockUntilSet` returning
a lock owning the key both times. -/
theorem unlock_idempotent_relock (s : TileCacher) (ks : List Key) (k : Key)
    (hk : s.set_waiters_ k = none) :
    Unlock (Unlock s ks).1 ks = ((Unlock s ks).1, []) ∧
    ((∀ k', k' ∈ ks → s.set_waiters_ k' = none) → Unlock s ks = (s, [])) ∧
    (LockUntilSet s [k]).2 = some [k] ∧
    (Unlock (LockUntilSet s [k]).1 [k]).2 = [] ∧
    (LockUntilSet (Unlock (LockUntilSet s [k]).1 [k]).1 [k]).2 = some [k] := by
  refine ⟨?_, Unlock_of_absent ks s, ?_, ?_, ?_⟩
  · apply Unlock_of_absent
    intro k' hk'
    rw [Unlock_set_waiters, if_pos hk']
  · rw [LockUntilSet_single_free s k hk]
  · rw [LockUntilSet_single_free s k hk, Unlock_single_held _ k [] (by simp)]
    rfl
  · have h2 : (Unlock (LockUntilSet s [k]).1 [k]).1.set_waiters_ k = none := by
      rw [Unlock_set_waiters]
      simp
    rw [LockUntilSet_single_free _ k h2]

/-- Witness for C10: keys `a` (locked, one waiter) and `b` (never locked). -/
theorem unlock_idempotent_relock_witness :
    Unlock (Unlock (LockUntilSet (init 1) ["a"]).1 ["a", "b"]).1 ["a", "b"]
      = ((Unlock (LockUntilSet (init 1) ["a"]).1 ["a", "b"]).1, []) ∧
    ((∀ k', k' ∈ ["a", "b"] → (LockUntilSet (init 1) ["a"]).1.set_waiters_ k' = none) →
      Unlock (LockUntilSet (init 1) ["a"]).1 ["a", "b"]
        = ((LockUntilSet (init 1) ["a"]).1, [])) ∧
    (LockUntilSet (LockUntilSet (init 1) ["a"]).1 ["b"]).2 = some ["b"] ∧
    (Unlock (LockUntilSet (LockUntilSet (init 1) ["a"]).1 ["b"]).1 ["b"]).2 = [] ∧
    (LockUntilSet (Unlock (LockUntilSet (LockUntilSet (init 1) ["a"]).1 ["b"]).1 ["b"]).1
      ["b"]).2 = some ["b"] :=
  unlock_idempotent_relock (LockUntilSet (init 1) ["a"]).1 ["a", "b"] "b" (by decide)

/-! ## `Set` on a key that is not locked -/

/-- C6 fails on the code: `Set` on a key without a `set_waiters_` entry reaches
`set_waiters_.erase(set_waiters_.end())` (tile_cacher.cpp line 57), which is
undefined, so the call does not complete as an unsolicited publication. -/
theorem Set_unlocked_key_undefined :
    (init 1).set_waiters_ "k" = none ∧
    (Set (init 1) "k" (some 5) 60 none).state = none ∧
    (Set (init 1) "k" (some 5) 60 none).events = none :=
  ⟨rfl, rfl, rfl⟩

/-- The round trip of C6 where the code has it: on a locked key, with room for
one tile, `Set` stores the tile and leaves `get_waiters_` alone, and a `Get`
right after resolves with that tile and touches neither waiter map. -/
theorem Set_Get_round_trip_of_held (s : TileCacher) (k : Key) (v : CachedTile)
    (ttl : Seconds) (st : Option Handle) (h : Handle) (ws : waiters_vec_t) (hk : k ≠ "")
    (hcap : 1 ≤ s.tmp_cache_.capacity) (hsw : s.set_waiters_ k = some ws) :
    ∃ s1 s2 evs, Set s k (some v) ttl st = .ok (s1, evs) ∧
      s1.tmp_cache_.peek k = some v ∧ s1.get_waiters_ = s.get_waiters_ ∧
      Get s1 k h = .ok (s2, [.SetResult h (some v)]) ∧
      s2.get_waiters_ = s1.get_waiters_ ∧ s2.set_waiters_ = s1.set_waiters_ := by
  have hpeek : (s.tmp_cache_.Set k v).peek k = some v := peek_Set_same _ _ _ hcap
  exact ⟨_, _, _, Set_held s k v ttl st ws hk hsw, hpeek, rfl,
    Get_hit { s with tmp_cache_ := s.tmp_cache_.Set k v
                     set_waiters_ := s.set_waiters_.erase k } k h v hk hpeek, rfl, rfl⟩

/-! ## Postcondition of `OnTileRetrieved` -/

/-- C11 (as the code has it). Postcondition of `OnTileRetrieved`: for every
state whose hot cache has room for one tile and in which key `k` has a
`get_waiters_` entry `ws`, `OnTileRetrieved(k, v)` with a tile `v` erases the
entry, leaves `v` in the hot cache under `k` and resolves the tasks of `ws`
with `v`, in order. For every state, `OnTileRetrieved(k, nullptr)` leaves no
entry for `k` and the hot cache unchanged, and all it emits are `SetResult`
calls with the absent tile, none a `NotifyError`. When `k` has no
`get_waiters_` entry the callback returns at once: with or without a tile it
changes nothing, the hot cache included, and settles nothing. -/
theorem onTileRetrieved_post (s : TileCacher) (k : Key) (v : CachedTile) (ws : waiters_vec_t)
    (hcap : 1 ≤ s.tmp_cache_.capacity) (hgw : s.get_waiters_ k = some ws) :
    ((OnTileRetrieved s k (some v)).1.get_waiters_ k = none ∧
      (OnTileRetrieved s k (some v)).1.tmp_cache_.peek k = some v ∧
      (OnTileRetrieved s k (some v)).2 = ws.map (fun t => Event.SetResult t (some v))) ∧
    (∀ t : TileCacher, (OnTileRetrieved t k none).1.get_waiters_ k = none ∧
      (OnTileRetrieved t k none).1.tmp_cache_ = t.tmp_cache_ ∧
      (OnTileRetrieved t k none).2
        = ((t.get_waiters_ k).getD []).map (fun g => Event.SetResult g none)) ∧
    (∀ (t : TileCacher) (tile : Option CachedTile), t.get_waiters_ k = none →
      OnTileRetrieved t k tile = (t, [])) := by
  refine ⟨⟨?_, ?_, ?_⟩, fun t => ?_, fun t tile ht => ?_⟩
  · simp [OnTileRetrieved, hgw]
  · simp [OnTileRetrieved, hgw, peek_Set_same _ _ _ hcap]
  · simp [OnTileRetrieved, hgw]
  · cases ht : t.get_waiters_ k with
    | none => simp [OnTileRetrieved, ht]
    | some l => simp [OnTileRetrieved, ht]
  · simp [OnTileRetrieved, ht]

/-- Witness for C11 (as the code has it): two tasks wait for key `k`. -/
theorem onTileRetrieved_post_witness :
    ∃ s evs, exec (init 1) [.Get "k" 1, .Get "k" 2] = .ok (s, evs) ∧
      (OnTileRetrieved s "k" (some 7)).1.get_waiters_ "k" = none ∧
      (OnTileRetrieved s "k" (some 7)).1.tmp_cache_.peek "k" = some 7 ∧
      (OnTileRetrieved s "k" (some 7)).2 = [1, 2].map (fun t => Event.SetResult t (some 7)) :=
  ⟨_, _, rfl, (onTileRetrieved_post _ "k" 7 [1, 2] (by decide) (by decide)).1⟩

/-- C11 as stated fails: for a key without a `get_waiters_` entry the callback
returns before it reaches the cache, so the retrieved tile is not in the hot
cache afterwards. -/
theorem onTileRetrieved_post_counterexample :
    (init 1).tmp_cache_.capacity = 1 ∧
    (OnTileRetrieved (init 1) "k" (some 7)).1.tmp_cache_.peek "k" = none ∧
    (OnTileRetrieved (init 1) "k" (some 7)).2 = [] := by
  decide

end TileCacher

namespace HTTPWorker

/-! ## `HTTPWorker::Request` and the dequeue step -/

theorem Request_of_busy (dns : String → Nat → Bool) (w : HTTPWorker)
    (request_info current : RequestInfo) (h : w.request_info_ = some current) :
    w.Request dns request_info
      = (w, [HttpEvent.NotifyError request_info.async_task HTTPClient.Error.internal], false) := by
  simp [Request, h]

@[simp] theorem MaybeResetHostPort_request_info (w : HTTPWorker) (host : String) (port : Nat) :
    (w.MaybeResetHostPort host port).1.request_info_ = w.request_info_ := by
  unfold MaybeResetHostPort
  by_cases h1 : w.host_ = host <;> by_cases h2 : w.port_ = port <;> simp [h1, h2]

@[simp] theorem MaybeResetHostPort_num_reconnects (w : HTTPWorker) (host : String)
    (port : Nat) : (w.MaybeResetHostPort host port).1.num_reconnects_ = w.num_reconnects_ := by
  unfold MaybeResetHostPort
  by_cases h1 : w.host_ = host <;> by_cases h2 : w.port_ = port <;> simp [h1, h2]

@[simp] theorem MaybeResetHostPort_session (w : HTTPWorker) (host : String) (port : Nat) :
    (w.MaybeResetHostPort host port).1.session_ = w.session_ := by
  unfold MaybeResetHostPort
  by_cases h1 : w.host_ = host <;> by_cases h2 : w.port_ = port <;> simp [h1, h2]

@[simp] theorem MaybeResetHostPort_host (w : HTTPWorker) (host : String) (port : Nat) :
    (w.MaybeResetHostPort host port).1.host_ = host := by
  unfold MaybeResetHostPort
  by_cases h1 : w.host_ = host <;> by_cases h2 : w.port_ = port <;> simp [h1, h2]

@[simp] theorem MaybeResetHostPort_port (w : HTTPWorker) (host : String) (port : Nat) :
    (w.MaybeResetHostPort host port).1.port_ = port := by
  unfold MaybeResetHostPort
  by_cases h1 : w.host_ = host <;> by_cases h2 : w.port_ = port <;> simp [h1, h2]

@[simp] theorem ResolveHostname_request_info (dns : String → Nat → Bool) (w : HTTPWorker) :
    (w.ResolveHostname dns).1.request_info_ = w.request_info_ := by
  unfold ResolveHostname
  split <;> rfl

@[simp] theorem ResolveHostname_num_reconnects (dns : String → Nat → Bool) (w : HTTPWorker) :
    (w.ResolveHostname dns).1.num_reconnects_ = w.num_reconnects_ := by
  unfold ResolveHostname
  split <;> rfl

@[simp] theorem ResolveHostname_session (dns : String → Nat → Bool) (w : HTTPWorker) :
    (w.ResolveHostname dns).1.session_ = w.session_ := by
  unfold ResolveHostname
  split <;> rfl

/-- What `Request` does on an idle worker: it settles host and port, looks the
host up if needed, and then fails with `resolution`, sends on the live session,
or connects. -/
theorem Request_idle_cases (dns : String → Nat → Bool) (w : HTTPWorker)
    (request_info : RequestInfo) (h : w.request_info_ = none) :
    ∃ v : HTTPWorker, v.request_info_ = none ∧ v.num_reconnects_ = w.num_reconnects_ ∧
      v.session_ = w.session_ ∧
      ((dns request_info.request.url.host request_info.request.url.port = false ∧
        w.Request dns request_info
          = (v, [HttpEvent.NotifyError request_info.async_task HTTPClient.Error.resolution],
              false)) ∨
       (∃ session, w.session_ = some session ∧ session.isClosing = false ∧
          w.Request dns request_info
            = ((({ v with request_info_ := some request_info }).SendRequest request_info
                  session).1,
               (({ v with request_info_ := some request_info }).SendRequest request_info
                  session).2, true)) ∨
       ((∀ session, w.session_ = some session → session.isClosing = true) ∧
          w.Request dns request_info
            = ({ v with request_info_ := some request_info },
               ({ v with request_info_ := some request_info }).Connect, true))) := by
  unfold Request
  rw [h]
  simp only [Option.isSome_none, Bool.false_eq_true, if_false]
  generalize hr : (if (w.MaybeResetHostPort request_info.request.url.host
      request_info.request.url.port).1.hostname_resolved_ = true then
        ((w.MaybeResetHostPort request_info.request.url.host request_info.request.url.port).1,
          true)
      else (w.MaybeResetHostPort request_info.request.url.host
        request_info.request.url.port).1.ResolveHostname dns) = r
  have h1 : r.1.request_info_ = none := by
    rw [← hr]; split <;> simp [h]
  have h2 : r.1.num_reconnects_ = w.num_reconnects_ := by
    rw [← hr]; split <;> simp
  have h3 : r.1.session_ = w.session_ := by
    rw [← hr]; split <;> simp
  have h4 : r.2 = false →
      dns request_info.request.url.host request_info.request.url.port = false := by
    rw [← hr]
    split
    · intro hx; cases hx
    · unfold ResolveHostname
      rw [MaybeResetHostPort_host, MaybeResetHostPort_port]
      cases hd : dns request_info.request.url.host request_info.request.url.port <;> simp
  obtain ⟨v, ok⟩ := r
  simp only at h1 h2 h3 h4
  refine ⟨v, h1, h2, h3, ?_⟩
  cases ok with
  | false => exact Or.inl ⟨h4 rfl, by simp⟩
  | true =>
    simp only [Bool.not_true, Bool.false_eq_true, if_false]
    rw [h3]
    cases hs : w.session_ with
    | none => exact Or.inr (Or.inr ⟨fun _ hx => Option.noConfusion hx, rfl⟩)
    | some session =>
      cases hc : session.isClosing with
      | false =>
        exact Or.inr (Or.inl ⟨session, rfl, hc, by simp [hc]⟩)
      | true =>
        refine Or.inr (Or.inr ⟨fun s hx => ?_, by simp [hc]⟩)
        injection hx with hx
        rw [← hx]; exact hc

/-- `Request` never writes the reconnect counter. -/
theorem Request_num_reconnects (dns : String → Nat → Bool) (w : HTTPWorker)
    (request_info : RequestInfo) :
    (w.Request dns request_info).1.num_reconnects_ = w.num_reconnects_ := by
  cases h : w.request_info_ with
  | some current => rw [Request_of_busy dns w request_info current h]
  | none =>
    obtain ⟨v, _, h2, _, hc⟩ := Request_idle_cases dns w request_info h
    rcases hc with ⟨_, hc⟩ | ⟨s, _, _, hc⟩ | ⟨_, hc⟩ <;> rw [hc] <;> simpa [SendRequest] using h2

/-- An idle worker either takes the request and settles nothing, or fails to
resolve its host, stays idle and settles the request with `resolution`. -/
theorem Request_of_idle (dns : String → Nat → Bool) (w : HTTPWorker)
    (request_info : RequestInfo) (h : w.request_info_ = none) :
    ((w.Request dns request_info).2.2 = true ∧ (w.Request dns request_info).1.busy = true ∧
      settlements (w.Request dns request_info).2.1 = []) ∨
    ((w.Request dns request_info).2.2 = false ∧ (w.Request dns request_info).1.busy = false ∧
      settlements (w.Request dns request_info).2.1
        = [(request_info.async_task, some HTTPClient.Error.resolution)]) := by
  obtain ⟨v, h1, _, _, hc⟩ := Request_idle_cases dns w request_info h
  rcases hc with ⟨_, hc⟩ | ⟨s, _, _, hc⟩ | ⟨_, hc⟩
  · rw [hc]
    exact Or.inr ⟨rfl, by simp [busy, h1], rfl⟩
  · rw [hc]
    refine Or.inl ⟨rfl, by simp [busy, SendRequest], ?_⟩
    cases hb : request_info.request_body <;> simp [SendRequest, settlements, hb]
  · rw [hc]
    exact Or.inl ⟨rfl, by simp [busy], by simp [Connect, settlements]⟩

@[simp] theorem MaybeProcessNextRequest_nil (dns : String → Nat → Bool) (w : HTTPWorker) :
    (w.MaybeProcessNextRequest dns []).1 = { worker := w, pending := [], events := [] } := rfl

theorem MaybeProcessNextRequest_cons (dns : String → Nat → Bool) (w : HTTPWorker)
    (r : RequestInfo) (rest : List RequestInfo) :
    (w.MaybeProcessNextRequest dns (r :: rest)).1
      = { worker := (w.Request dns r).1, pending := rest, events := (w.Request dns r).2.1 } :=
  rfl

theorem MaybeProcessNextRequest_pending (dns : String → Nat → Bool) (w : HTTPWorker)
    (pending : List RequestInfo) :
    (w.MaybeProcessNextRequest dns pending).1.pending = pending.tail := by
  cases pending <;> rfl

theorem MaybeProcessNextRequest_num_reconnects (dns : String → Nat → Bool) (w : HTTPWorker)
    (pending : List RequestInfo) :
    (w.MaybeProcessNextRequest dns pending).1.worker.num_reconnects_ = w.num_reconnects_ := by
  cases pending with
  | nil => rfl
  | cons r rest => exact Request_num_reconnects dns w r

/-- C15. A busy worker refuses: when `request_info_` is present, `Request`
returns false, settles the handle of the new request with `internal` once, and
leaves the worker (its in-flight request, reconnect counter, host, port and
resolved flag) and the shared queue exactly as they were. -/
theorem busy_worker_refuses (dns : String → Nat → Bool) (w : HTTPWorker)
    (pending : List RequestInfo) (request_info current : RequestInfo)
    (h : w.request_info_ = some current) :
    w.Request dns request_info
      = (w, [HttpEvent.NotifyError request_info.async_task HTTPClient.Error.internal], false) ∧
    settlements (w.Request dns request_info).2.1
      = [(request_info.async_task, some HTTPClient.Error.internal)] ∧
    (w.Request dns request_info).1.request_info_ = some current ∧
    step dns w pending (Op.Request request_info)
      = .ok { worker := w, pending := pending,
              events := [HttpEvent.NotifyError request_info.async_task
                HTTPClient.Error.internal] } := by
  have hr := Request_of_busy dns w request_info current h
  refine ⟨hr, ?_, ?_, ?_⟩
  · rw [hr]; rfl
  · rw [hr]; exact h
  · simp only [step, hr]

end HTTPWorker

namespace HTTPWorker

/-! ## Transaction errors -/

/-- C18 (as the code has it). Transaction error mapping: with a request in
flight, `onError(e)` settles its handle once, with `timeout` exactly when `e` is
proxygen's timeout error and with `network` for every other `e`, clears
`request_info_` and then takes the front of the queue if there is one. With no
request in flight it settles no in-flight handle but still takes the front of
the queue. In both cases the request taken from the queue is either started
(nothing more is settled) or, when its host does not resolve, settled with
`resolution`; with an empty queue nothing more happens. -/
theorem onError_mapping (dns : String → Nat → Bool) (w : HTTPWorker)
    (pending : List RequestInfo) (error : ProxygenError) :
    (∀ info, w.request_info_ = some info →
      (w.onError dns pending error).events
        = HttpEvent.NotifyError info.async_task
            (if error = ProxygenError.kErrorTimeout then HTTPClient.Error.timeout
             else HTTPClient.Error.network)
          :: (({ w with request_info_ := none }).MaybeProcessNextRequest dns pending).1.events ∧
      (w.onError dns pending error).worker
        = (({ w with request_info_ := none }).MaybeProcessNextRequest dns pending).1.worker ∧
      (w.onError dns pending error).pending = pending.tail) ∧
    (w.request_info_ = none →
      w.onError dns pending error = (w.MaybeProcessNextRequest dns pending).1) ∧
    (∀ v : HTTPWorker, v.request_info_ = none →
      (v.MaybeProcessNextRequest dns []).1 = { worker := v, pending := [], events := [] } ∧
      ∀ r rest, (v.MaybeProcessNextRequest dns (r :: rest)).1.pending = rest ∧
        (((v.MaybeProcessNextRequest dns (r :: rest)).1.worker.busy = true ∧
            settlements (v.MaybeProcessNextRequest dns (r :: rest)).1.events = []) ∨
         ((v.MaybeProcessNextRequest dns (r :: rest)).1.worker.busy = false ∧
            settlements (v.MaybeProcessNextRequest dns (r :: rest)).1.events
              = [(r.async_task, some HTTPClient.Error.resolution)]))) := by
  refine ⟨fun info hi => ?_, fun hn => ?_, fun v hv => ⟨rfl, fun r rest => ⟨rfl, ?_⟩⟩⟩
  · unfold onError
    rw [hi]
    refine ⟨?_, rfl, MaybeProcessNextRequest_pending _ _ _⟩
    by_cases he : error = ProxygenError.kErrorTimeout <;> simp [he]
  · unfold onError
    rw [hn]
  · rw [MaybeProcessNextRequest_cons]
    rcases Request_of_idle dns v r hv with ⟨_, h2, h3⟩ | ⟨_, h2, h3⟩
    · exact Or.inl ⟨h2, h3⟩
    · exact Or.inr ⟨h2, h3⟩

/-- C18 as stated fails: an idle worker that gets `onError` still takes the
front of the queue, and when that request's host does not resolve the call
settles its handle with `resolution`. -/
theorem onError_mapping_counterexample :
    (init (fun _ _ => false) [] "" 80).worker.request_info_ = none ∧
    settlements ((init (fun _ _ => false) [] "" 80).worker.onError (fun _ _ => false)
        [HTTPClient.makeRequestInfo 2 0 { host := "bad", port := 80, path := "/" } none none]
        (ProxygenError.other 1)).events
      = [(2, some HTTPClient.Error.resolution)] := by
  decide

/-! ## Response assembly -/

/-- Body chunks delivered to a worker with a request in flight are chained in
arrival order behind the body gathered so far. -/
theorem exec_onBody (dns : String → Nat → Bool) (pending : List RequestInfo)
    (chunks : List IOBuf) :
    ∀ (w : HTTPWorker) (info : RequestInfo), w.request_info_ = some info →
      exec dns w pending (chunks.map (fun c => Op.callback (Callback.onBody c)))
        = .ok { worker := { w with request_info_ := some { info with
                  response_body :=
                    if chunks.isEmpty then info.response_body
                    else some ((info.response_body.getD []) ++ chunks.flatten) } }
                pending := pending, events := [] } := by
  induction chunks with
  | nil =>
    intro w info hi
    simp only [List.map_nil, exec, List.isEmpty_nil, if_true]
    rw [← hi]
  | cons c chunks ih =>
    intro w info hi
    simp only [List.map_cons, exec, step, callback, onBody, hi]
    cases hb : info.response_body with
    | none =>
      simp only []
      rw [ih _ { info with response_body := some c } rfl]
      cases chunks <;> simp [hb]
    | some b =>
      simp only []
      rw [ih _ { info with response_body := some (IOBuf.prependChain b c) } rfl]
      cases chunks <;> simp [hb, IOBuf.prependChain]

end HTTPWorker

namespace HTTPWorker

theorem exec_cons_eq (dns : String → Nat → Bool) (w : HTTPWorker) (pending : List RequestInfo)
    (op : Op) (ops : List Op) :
    exec dns w pending (op :: ops)
      = match step dns w pending op with
        | .error e => .error e
        | .ok r1 =>
          match exec dns r1.worker r1.pending ops with
          | .error e => .error e
          | .ok r2 => .ok { r2 with events := r1.events ++ r2.events } := rfl

theorem exec_append_ok (dns : String → Nat → Bool) (ops1 ops2 : List Op) :
    ∀ (w : HTTPWorker) (pending : List RequestInfo) (r1 : Result),
      exec dns w pending ops1 = .ok r1 →
      exec dns w pending (ops1 ++ ops2)
        = (exec dns r1.worker r1.pending ops2).map
            (fun r2 => { r2 with events := r1.events ++ r2.events }) := by
  induction ops1 with
  | nil =>
    intro w pending r1 h
    simp only [exec] at h
    injection h with h
    subst h
    rw [List.nil_append]
    cases exec dns w pending ops2 with
    | error e => rfl
    | ok r => simp [Except.map]
  | cons op ops1 ih =>
    intro w pending r1 h
    rw [List.cons_append, exec_cons_eq]
    rw [exec_cons_eq] at h
    cases hs : step dns w pending op with
    | error e => simp [hs] at h
    | ok ra =>
      simp only [hs] at h ⊢
      cases he : exec dns ra.worker ra.pending ops1 with
      | error e => simp [he] at h
      | ok rb =>
        simp only [he] at h
        injection h with h
        subst h
        rw [ih ra.worker ra.pending rb he]
        cases exec dns rb.worker rb.pending ops2 with
        | error e => rfl
        | ok r => simp [Except.map, List.append_assoc]

/-- C19. Response body order: for a worker whose request in flight has no
response body yet (as when it has just been sent), after `onHeadersComplete`
with head `msg`, then `onBody` for each of the chunks `c_1 ... c_n` in turn, then
`onEOM`, the response given to the request's handle has head `msg` and body
`c_1 ++ ... ++ c_n` in arrival order, a null body when there was no chunk. The
worker then drops the request and takes the front of the queue. -/
theorem response_body_order (dns : String → Nat → Bool) (w : HTTPWorker)
    (pending : List RequestInfo) (info : RequestInfo) (msg : HTTPMessage)
    (chunks : List IOBuf) (hinfo : w.request_info_ = some info)
    (hbody : info.response_body = none) :
    exec dns w pending
        ([Op.callback (Callback.onHeadersComplete msg)]
          ++ chunks.map (fun c => Op.callback (Callback.onBody c))
          ++ [Op.callback Callback.onEOM])
      = .ok { (({ w with request_info_ := none }).MaybeProcessNextRequest dns pending).1 with
          events :=
            HttpEvent.SetResult info.async_task
                { response := some msg
                  response_body := if chunks.isEmpty then none else some chunks.flatten }
              :: (({ w with request_info_ := none }).MaybeProcessNextRequest dns
                    pending).1.events } := by
  have h1 : exec dns w pending [Op.callback (Callback.onHeadersComplete msg)]
      = .ok { worker := { w with request_info_ := some { info with response := some msg } }
              pending := pending, events := [] } := by
    simp [exec, step, callback, onHeadersComplete, hinfo]
  have h2 := exec_onBody dns pending chunks
    { w with request_info_ := some { info with response := some msg } }
    { info with response := some msg } rfl
  rw [List.append_assoc, exec_append_ok dns _ _ w pending _ h1]
  simp only []
  rw [exec_append_ok dns _ _ _ pending _ h2]
  simp only [exec, step, callback, onEOM, Except.map, hbody, List.nil_append,
    Option.getD_none, List.append_nil]

/-- Witness for C19: a request sent on a new connection, then a head and three
chunks. -/
theorem response_body_order_witness :
    exec (fun _ _ => true)
        ((((init (fun _ _ => true) [] "h" 80).worker.Request (fun _ _ => true)
            (HTTPClient.makeRequestInfo 7 0 ⟨"h", 80, "/"⟩ none none)).1).connectSuccess
          ⟨0, false⟩).1 []
        ([Op.callback (Callback.onHeadersComplete ⟨0, ⟨"", 0, ""⟩, 200, []⟩)]
          ++ [[[1], [2]], [[3]], [[4, 5]]].map (fun c => Op.callback (Callback.onBody c))
          ++ [Op.callback Callback.onEOM])
      = .ok { (({ ((((init (fun _ _ => true) [] "h" 80).worker.Request (fun _ _ => true)
                  (HTTPClient.makeRequestInfo 7 0 ⟨"h", 80, "/"⟩ none none)).1).connectSuccess
                    ⟨0, false⟩).1 with
                  request_info_ := none }).MaybeProcessNextRequest (fun _ _ => true) []).1 with
          events :=
            HttpEvent.SetResult 7
                { response := some ⟨0, ⟨"", 0, ""⟩, 200, []⟩
                  response_body :=
                    if [[[1], [2]], [[3]], [[4, 5]]].isEmpty then none
                    else some [[[1], [2]], [[3]], [[4, 5]]].flatten }
              :: (({ ((((init (fun _ _ => true) [] "h" 80).worker.Request (fun _ _ => true)
                      (HTTPClient.makeRequestInfo 7 0 ⟨"h", 80, "/"⟩ none none)).1).connectSuccess
                        ⟨0, false⟩).1 with
                    request_info_ := none }).MaybeProcessNextRequest (fun _ _ => true)
                    []).1.events } :=
  response_body_order (fun _ _ => true) _ []
    (HTTPClient.makeRequestInfo 7 0 ⟨"h", 80, "/"⟩ none none)
    ⟨0, ⟨"", 0, ""⟩, 200, []⟩ [[[1], [2]], [[3]], [[4, 5]]] (by decide) (by decide)

end HTTPWorker

namespace HTTPWorker

/-! ## Connect retries -/

theorem connectCalls_append (a b : List HttpEvent) :
    connectCalls (a ++ b) = connectCalls a + connectCalls b := by
  induction a with
  | nil => simp [connectCalls]
  | cons e a ih =>
    cases e <;> simp [connectCalls, ih]
    omega

theorem settlements_append (a b : List HttpEvent) :
    settlements (a ++ b) = settlements a ++ settlements b := by
  induction a with
  | nil => rfl
  | cons e a ih => cases e <;> simp [settlements, ih]

@[simp] theorem connectCalls_Connect (w : HTTPWorker) : connectCalls w.Connect = 1 := rfl

@[simp] theorem settlements_Connect (w : HTTPWorker) : settlements w.Connect = [] := rfl

theorem connectError_retry (dns : String → Nat → Bool) (w : HTTPWorker)
    (pending : List RequestInfo) (h : w.num_reconnects_ < kMaxReconnects) :
    w.connectError dns pending
      = { worker := { w with num_reconnects_ := w.num_reconnects_ + 1 }, pending := pending,
          events := w.Connect } := by
  simp [connectError, h]

theorem connectError_exhausted (dns : String → Nat → Bool) (w : HTTPWorker)
    (pending : List RequestInfo) (h : ¬ w.num_reconnects_ < kMaxReconnects) :
    w.connectError dns pending
      = { (({ w with num_reconnects_ := 0, request_info_ := none }).MaybeProcessNextRequest dns
            pending).1 with
          events :=
            (match w.request_info_ with
              | some info =>
                [HttpEvent.NotifyError info.async_task HTTPClient.Error.connection]
              | none => [])
            ++ (({ w with num_reconnects_ := 0, request_info_ := none }).MaybeProcessNextRequest
                  dns pending).1.events } := by
  simp [connectError, h]

/-- While the counter is below `kMaxReconnects`, each `connectError` raises it
by one and calls `connect` again; nothing else changes and nothing is settled. -/
theorem exec_connectErrors (dns : String → Nat → Bool) (pending : List RequestInfo) (m : Nat) :
    ∀ w : HTTPWorker, w.num_reconnects_ + m ≤ kMaxReconnects →
      ∃ r, exec dns w pending (List.replicate m (Op.callback Callback.connectError)) = .ok r ∧
        r.worker = { w with num_reconnects_ := w.num_reconnects_ + m } ∧
        r.pending = pending ∧ connectCalls r.events = m ∧ settlements r.events = [] := by
  induction m with
  | zero => intro w _; exact ⟨_, rfl, rfl, rfl, rfl, rfl⟩
  | succ m ih =>
    intro w hle
    have hlt : w.num_reconnects_ < kMaxReconnects := by omega
    obtain ⟨r, h1, h2, h3, h4, h5⟩ :=
      ih { w with num_reconnects_ := w.num_reconnects_ + 1 } (by simp only; omega)
    refine ⟨{ r with events := w.Connect ++ r.events }, ?_, ?_, h3, ?_, ?_⟩
    · rw [List.replicate_succ, exec_cons_eq]
      simp only [step, callback, connectError_retry dns w pending hlt, h1]
    · rw [h2]
      simp only [HTTPWorker.mk.injEq, and_true, true_and]
      omega
    · simp only [connectCalls_append, h4, connectCalls_Connect]
      omega
    · simp only [settlements_append, h5, settlements_Connect, List.append_nil]

/-- `Request` on an idle worker without a usable session, for a host that
resolves: the request is stored and `connect` is called once. -/
theorem Request_connects (dns : String → Nat → Bool) (w : HTTPWorker) (info : RequestInfo)
    (hidle : w.request_info_ = none)
    (hsess : ∀ session, w.session_ = some session → session.isClosing = true)
    (hdns : dns info.request.url.host info.request.url.port = true) :
    ∃ v : HTTPWorker, v.request_info_ = some info ∧ v.num_reconnects_ = w.num_reconnects_ ∧
      w.Request dns info = (v, v.Connect, true) := by
  obtain ⟨v, _, h2, _, hc⟩ := Request_idle_cases dns w info hidle
  rcases hc with ⟨hf, _⟩ | ⟨s, hs, hcl, _⟩ | ⟨_, hc⟩
  · rw [hdns] at hf; cases hf
  · rw [hsess s hs] at hcl; cases hcl
  · exact ⟨{ v with request_info_ := some info }, rfl, h2, hc⟩

end HTTPWorker

namespace HTTPWorker

/-- C16 (as the code has it). Connect attempt limit: an idle worker without a
usable session that accepts a request for a resolvable host calls `connect`
once, and once more for each `connectError` while the counter is below
`kMaxReconnects` = 3. When every attempt fails that makes one call plus
`3 - num_reconnects_` calls, at most 4 in total and exactly 4 for a counter
of 0, and the handle is unsettled during all of them. The next `connectError`
settles the handle with `connection`, drops the request, resets the counter and
takes the front of the queue. -/
theorem connect_attempt_limit (dns : String → Nat → Bool) (w : HTTPWorker)
    (pending : List RequestInfo) (info : RequestInfo) (hidle : w.request_info_ = none)
    (hsess : ∀ session, w.session_ = some session → session.isClosing = true)
    (hdns : dns info.request.url.host info.request.url.port = true) :
    ∃ r, exec dns w pending
          (Op.Request info ::
            List.replicate (kMaxReconnects - w.num_reconnects_) (Op.callback Callback.connectError))
        = .ok r ∧
      connectCalls r.events = 1 + (kMaxReconnects - w.num_reconnects_) ∧
      connectCalls r.events ≤ 4 ∧
      (w.num_reconnects_ = 0 → connectCalls r.events = 4) ∧
      settlements r.events = [] ∧
      r.worker.request_info_ = some info ∧ r.pending = pending ∧
      (r.worker.connectError dns pending).events
        = HttpEvent.NotifyError info.async_task HTTPClient.Error.connection
          :: (({ r.worker with num_reconnects_ := 0, request_info_ := none
                }).MaybeProcessNextRequest dns pending).1.events ∧
      (r.worker.connectError dns pending).worker
        = (({ r.worker with num_reconnects_ := 0, request_info_ := none
            }).MaybeProcessNextRequest dns pending).1.worker ∧
      (r.worker.connectError dns pending).worker.num_reconnects_ = 0 ∧
      (r.worker.connectError dns pending).pending = pending.tail := by
  obtain ⟨v, hv1, hv2, hv3⟩ := Request_connects dns w info hidle hsess hdns
  by_cases hle : w.num_reconnects_ ≤ kMaxReconnects
  · obtain ⟨r, h1, h2, h3, h4, h5⟩ :=
      exec_connectErrors dns pending (kMaxReconnects - w.num_reconnects_) v
        (by rw [hv2]; omega)
    have hcnt : ¬ ({ v with num_reconnects_ := v.num_reconnects_
        + (kMaxReconnects - w.num_reconnects_) } : HTTPWorker).num_reconnects_
          < kMaxReconnects := by
      simp only [hv2]; omega
    refine ⟨{ r with events := v.Connect ++ r.events }, ?_, ?_, ?_, ?_, ?_, ?_, h3, ?_, ?_, ?_, ?_⟩
    · rw [exec_cons_eq]
      simp only [step, hv3, h1]
    · simp only [connectCalls_append, connectCalls_Connect, h4]
    · simp only [connectCalls_append, connectCalls_Connect, h4, kMaxReconnects]; omega
    · intro h0
      simp only [connectCalls_append, connectCalls_Connect, h4, kMaxReconnects, h0]
    · simp only [settlements_append, settlements_Connect, h5, List.append_nil]
    · rw [h2]; exact hv1
    · simp only [h2]
      rw [connectError_exhausted dns _ pending hcnt]
      simp only [hv1, List.singleton_append]
    · simp only [h2]
      rw [connectError_exhausted dns _ pending hcnt]
    · simp only [h2]
      rw [connectError_exhausted dns _ pending hcnt]
      exact MaybeProcessNextRequest_num_reconnects dns _ pending
    · simp only [h2]
      rw [connectError_exhausted dns _ pending hcnt]
      exact MaybeProcessNextRequest_pending dns _ pending
  · have hz : kMaxReconnects - w.num_reconnects_ = 0 := by omega
    have hcnt : ¬ v.num_reconnects_ < kMaxReconnects := by rw [hv2]; omega
    refine ⟨{ worker := v, pending := pending, events := v.Connect }, ?_, ?_, ?_, ?_, rfl, hv1,
      rfl, ?_, ?_, ?_, ?_⟩
    · rw [hz, List.replicate_zero, exec_cons_eq]
      simp only [step, hv3, exec, List.append_nil]
    · rw [hz]; rfl
    · simp [connectCalls_Connect]
    · intro h0
      rw [h0] at hle
      exact absurd (Nat.zero_le _) hle
    · simp only []
      rw [connectError_exhausted dns _ pending hcnt]
      simp only [hv1, List.singleton_append]
    · simp only []
      rw [connectError_exhausted dns _ pending hcnt]
    · simp only []
      rw [connectError_exhausted dns _ pending hcnt]
      exact MaybeProcessNextRequest_num_reconnects dns _ pending
    · simp only []
      rw [connectError_exhausted dns _ pending hcnt]
      exact MaybeProcessNextRequest_pending dns _ pending

end HTTPWorker

namespace HTTPWorker

/-- Witness for C16 (as the code has it): a new worker, every connect fails. -/
theorem connect_attempt_limit_witness :
    ∃ r, exec (fun _ _ => true) (init (fun _ _ => true) [] "h" 80).worker []
          (Op.Request (HTTPClient.makeRequestInfo 1 0 ⟨"h", 80, "/"⟩ none none) ::
            List.replicate (kMaxReconnects - (init (fun _ _ => true) [] "h" 80).worker.num_reconnects_)
              (Op.callback Callback.connectError))
        = .ok r ∧
      connectCalls r.events = 4 ∧ settlements r.events = [] ∧
      settlements (r.worker.connectError (fun _ _ => true) []).events
        = settlements (HttpEvent.NotifyError 1 HTTPClient.Error.connection
          :: (({ r.worker with num_reconnects_ := 0, request_info_ := none
                }).MaybeProcessNextRequest (fun _ _ => true) []).1.events) :=
  let ⟨r, h1, _, _, h4, h5, _, _, h8, _⟩ :=
    connect_attempt_limit (fun _ _ => true) (init (fun _ _ => true) [] "h" 80).worker []
      (HTTPClient.makeRequestInfo 1 0 ⟨"h", 80, "/"⟩ none none) (by decide)
      (fun _ h => Option.noConfusion
        ((by decide : (init (fun _ _ => true) [] "h" 80).worker.session_ = none).symm.trans h))
      (by decide)
  ⟨r, h1, h4 (by decide), h5, congrArg settlements h8⟩

/-- C16 as stated fails: a new worker whose every connect attempt fails has
called `connect` four times, the first attempt and three reconnects, while the
handle is still unsettled. -/
theorem connect_attempt_limit_counterexample :
    (exec (fun _ _ => true) (init (fun _ _ => true) [] "h" 80).worker []
        [Op.Request (HTTPClient.makeRequestInfo 1 0 ⟨"h", 80, "/"⟩ none none),
          Op.callback Callback.connectError, Op.callback Callback.connectError,
          Op.callback Callback.connectError]).toOption.map
      (fun r => (connectCalls r.events, settlements r.events, r.worker.busy))
      = some (4, [], true) := by
  decide

/-! ## The reconnect counter -/

theorem step_num_reconnects_le (dns : String → Nat → Bool) (w : HTTPWorker)
    (pending : List RequestInfo) (op : Op) (r : Result)
    (hle : w.num_reconnects_ ≤ kMaxReconnects) (hs : step dns w pending op = .ok r) :
    r.worker.num_reconnects_ ≤ kMaxReconnects := by
  cases op with
  | Request info =>
    simp only [step] at hs
    injection hs with hs
    rw [← hs]
    simpa [Request_num_reconnects] using hle
  | callback cb =>
    cases cb with
    | connectSuccess session =>
      simp only [step, callback] at hs
      injection hs with hs
      rw [← hs]
      unfold connectSuccess
      cases w.request_info_ <;> simp [SendRequest]
    | connectError =>
      simp only [step, callback] at hs
      injection hs with hs
      rw [← hs]
      by_cases hlt : w.num_reconnects_ < kMaxReconnects
      · rw [connectError_retry dns w pending hlt]
        simp only
        omega
      · rw [connectError_exhausted dns w pending hlt]
        simp [MaybeProcessNextRequest_num_reconnects]
    | detachTransaction =>
      simp only [step, callback] at hs
      injection hs with hs
      rw [← hs]
      exact hle
    | onHeadersComplete msg =>
      simp only [step, callback, onHeadersComplete] at hs
      cases hi : w.request_info_ with
      | none => simp [hi] at hs
      | some info =>
        simp only [hi] at hs
        injection hs with hs
        rw [← hs]
        exact hle
    | onBody chain =>
      simp only [step, callback, onBody] at hs
      cases hi : w.request_info_ with
      | none => simp [hi] at hs
      | some info =>
        simp only [hi] at hs
        cases hb : info.response_body with
        | none =>
          simp only [hb] at hs
          injection hs with hs
          rw [← hs]
          exact hle
        | some b =>
          simp only [hb] at hs
          injection hs with hs
          rw [← hs]
          exact hle
    | onEOM =>
      simp only [step, callback, onEOM] at hs
      cases hi : w.request_info_ with
      | none => simp [hi] at hs
      | some info =>
        simp only [hi] at hs
        injection hs with hs
        rw [← hs]
        simpa [MaybeProcessNextRequest_num_reconnects] using hle
    | onError error =>
      simp only [step, callback] at hs
      injection hs with hs
      rw [← hs]
      unfold onError
      cases hi : w.request_info_ with
      | none => simpa [MaybeProcessNextRequest_num_reconnects] using hle
      | some info => simpa [MaybeProcessNextRequest_num_reconnects] using hle

theorem exec_num_reconnects_le (dns : String → Nat → Bool) (ops : List Op) :
    ∀ (w : HTTPWorker) (pending : List RequestInfo) (r : Result),
      w.num_reconnects_ ≤ kMaxReconnects → exec dns w pending ops = .ok r →
      r.worker.num_reconnects_ ≤ kMaxReconnects := by
  induction ops with
  | nil =>
    intro w pending r hle h
    simp only [exec] at h
    injection h with h
    rw [← h]
    exact hle
  | cons op ops ih =>
    intro w pending r hle h
    rw [exec_cons_eq] at h
    cases hs : step dns w pending op with
    | error e => simp [hs] at h
    | ok ra =>
      simp only [hs] at h
      cases he : exec dns ra.worker ra.pending ops with
      | error e => simp [he] at h
      | ok rb =>
        simp only [he] at h
        injection h with h
        rw [← h]
        exact ih ra.worker ra.pending rb (step_num_reconnects_le dns w pending op ra hle hs) he

end HTTPWorker

namespace HTTPWorker

theorem init_num_reconnects (dns : String → Nat → Bool) (pending : List RequestInfo)
    (host : String) (port : Nat) : (init dns pending host port).worker.num_reconnects_ = 0 := by
  unfold init
  simp only [MaybeProcessNextRequest_num_reconnects]
  split <;> simp

/-- C17. Reconnect counter: in every state a worker reaches from its
construction by `Request` calls and callbacks the counter is at most 3; it is 0
after every `connectSuccess` and after every `connectError` that finds the
counter exhausted; and when an idle worker without a usable session, with a
counter of at most 1 (0 in a new worker and after each reset), accepts a
request whose first two connect attempts fail and whose third succeeds, it calls
`connect` exactly three times, sends the request on the session of the third
attempt, settles nothing meanwhile and ends with the counter at 0. -/
theorem reconnect_counter (dns : String → Nat → Bool) (pending0 : List RequestInfo)
    (host : String) (port : Nat) (ops : List Op) (r : Result) (w : HTTPWorker)
    (pending : List RequestInfo) (info : RequestInfo) (session : HTTPUpstreamSession)
    (hex : exec dns (init dns pending0 host port).worker (init dns pending0 host port).pending
      ops = .ok r)
    (hidle : w.request_info_ = none)
    (hsess : ∀ s, w.session_ = some s → s.isClosing = true)
    (hdns : dns info.request.url.host info.request.url.port = true)
    (hcnt : w.num_reconnects_ ≤ 1) :
    r.worker.num_reconnects_ ≤ 3 ∧
    (∀ (v : HTTPWorker) (s : HTTPUpstreamSession), (v.connectSuccess s).1.num_reconnects_ = 0) ∧
    (∀ (v : HTTPWorker) (p : List RequestInfo), ¬ v.num_reconnects_ < kMaxReconnects →
      (v.connectError dns p).worker.num_reconnects_ = 0) ∧
    ∃ r3 addr, exec dns w pending
          [Op.Request info, Op.callback Callback.connectError,
            Op.callback Callback.connectError, Op.callback (Callback.connectSuccess session)]
        = .ok r3 ∧
      r3.events
        = [HttpEvent.connectorReset, HttpEvent.connect addr 3000,
            HttpEvent.connectorReset, HttpEvent.connect addr 3000,
            HttpEvent.connectorReset, HttpEvent.connect addr 3000,
            HttpEvent.newTransaction session, HttpEvent.sendHeaders info.request]
          ++ (match info.request_body with
              | some body => [HttpEvent.sendBody body]
              | none => [])
          ++ [HttpEvent.sendEOM, HttpEvent.closeWhenIdle session] ∧
      connectCalls r3.events = 3 ∧ settlements r3.events = [] ∧
      r3.worker.num_reconnects_ = 0 ∧ r3.worker.busy = true ∧ r3.pending = pending := by
  refine ⟨?_, ?_, ?_, ?_⟩
  · exact exec_num_reconnects_le dns ops _ _ r
      (by rw [init_num_reconnects]; exact Nat.zero_le _) hex
  · intro v s
    unfold connectSuccess
    cases v.request_info_ <;> simp [SendRequest]
  · intro v p hv
    rw [connectError_exhausted dns v p hv]
    simp [MaybeProcessNextRequest_num_reconnects]
  · obtain ⟨v, hv1, hv2, hv3⟩ := Request_connects dns w info hidle hsess hdns
    have hlt1 : v.num_reconnects_ < kMaxReconnects := by
      rw [hv2]; simp only [kMaxReconnects]; omega
    have hlt2 : ({ v with num_reconnects_ := v.num_reconnects_ + 1 } : HTTPWorker).num_reconnects_
        < kMaxReconnects := by
      simp only [hv2, kMaxReconnects]; omega
    refine ⟨{ worker := (({ v with num_reconnects_ := 0 } : HTTPWorker).SendRequest info
                session).1
              pending := pending
              events := v.Connect ++ (v.Connect ++ (v.Connect ++
                ((({ v with num_reconnects_ := 0 } : HTTPWorker).SendRequest info session).2
                  ++ [HttpEvent.closeWhenIdle session]))) }, v.addr_, ?_, ?_, ?_, ?_, ?_, ?_, ?_⟩
    · have e1 : step dns w pending (Op.Request info)
          = .ok { worker := v, pending := pending, events := v.Connect } := by
        simp only [step, hv3]
      have e2 : step dns v pending (Op.callback Callback.connectError)
          = .ok { worker := { v with num_reconnects_ := v.num_reconnects_ + 1 }
                  pending := pending, events := v.Connect } := by
        simp only [step, callback, connectError_retry dns v pending hlt1]
      have e3 : step dns { v with num_reconnects_ := v.num_reconnects_ + 1 } pending
          (Op.callback Callback.connectError)
          = .ok { worker := { v with num_reconnects_ := v.num_reconnects_ + 1 + 1 }
                  pending := pending, events := v.Connect } := by
        simp only [step, callback, connectError_retry dns _ pending hlt2]
        rfl
      have e4 : step dns { v with num_reconnects_ := v.num_reconnects_ + 1 + 1 } pending
          (Op.callback (Callback.connectSuccess session))
          = .ok { worker := (({ v with num_reconnects_ := 0 } : HTTPWorker).SendRequest info
                    session).1
                  pending := pending
                  events := (({ v with num_reconnects_ := 0 } : HTTPWorker).SendRequest info
                    session).2 ++ [HttpEvent.closeWhenIdle session] } := by
        simp only [step, callback, connectSuccess, hv1]
      rw [exec_cons_eq, e1]
      simp only []
      rw [exec_cons_eq, e2]
      simp only []
      rw [exec_cons_eq, e3]
      simp only []
      rw [exec_cons_eq, e4]
      simp only [exec, List.append_nil]
    · cases hb : info.request_body <;> simp [Connect, SendRequest, hb]
    · cases hb : info.request_body <;>
        simp [Connect, SendRequest, hb, connectCalls]
    · cases hb : info.request_body <;>
        simp [Connect, SendRequest, hb, settlements]
    · simp [SendRequest]
    · simp [SendRequest, busy]
    · rfl

/-- Witness for C17: a new worker, two failed connects and a success. -/
theorem reconnect_counter_witness :
    ∃ r, exec (fun _ _ => true) (init (fun _ _ => true) [] "h" 80).worker
          (init (fun _ _ => true) [] "h" 80).pending
          [Op.Request (HTTPClient.makeRequestInfo 1 0 ⟨"h", 80, "/"⟩ none none),
            Op.callback Callback.connectError, Op.callback Callback.connectError,
            Op.callback Callback.connectError] = .ok r ∧
      r.worker.num_reconnects_ ≤ 3 ∧
      ∃ r3 addr, exec (fun _ _ => true) (init (fun _ _ => true) [] "h" 80).worker []
            [Op.Request (HTTPClient.makeRequestInfo 1 0 ⟨"h", 80, "/"⟩ none none),
              Op.callback Callback.connectError, Op.callback Callback.connectError,
              Op.callback (Callback.connectSuccess ⟨5, false⟩)]
          = .ok r3 ∧
        r3.events
          = [HttpEvent.connectorReset, HttpEvent.connect addr 3000,
              HttpEvent.connectorReset, HttpEvent.connect addr 3000,
              HttpEvent.connectorReset, HttpEvent.connect addr 3000,
              HttpEvent.newTransaction ⟨5, false⟩,
              HttpEvent.sendHeaders
                (HTTPClient.makeRequestInfo 1 0 ⟨"h", 80, "/"⟩ none none).request]
            ++ (match (HTTPClient.makeRequestInfo 1 0 ⟨"h", 80, "/"⟩ none none).request_body with
                | some body => [HttpEvent.sendBody body]
                | none => [])
            ++ [HttpEvent.sendEOM, HttpEvent.closeWhenIdle ⟨5, false⟩] ∧
        connectCalls r3.events = 3 ∧ settlements r3.events = [] ∧
        r3.worker.num_reconnects_ = 0 ∧ r3.worker.busy = true ∧ r3.pending = [] :=
  ⟨_, rfl,
    (reconnect_counter (fun _ _ => true) [] "h" 80
      [Op.Request (HTTPClient.makeRequestInfo 1 0 ⟨"h", 80, "/"⟩ none none),
        Op.callback Callback.connectError, Op.callback Callback.connectError,
        Op.callback Callback.connectError] _
      (init (fun _ _ => true) [] "h" 80).worker []
      (HTTPClient.makeRequestInfo 1 0 ⟨"h", 80, "/"⟩ none none) ⟨5, false⟩ rfl (by decide)
      (fun _ h => Option.noConfusion
        ((by decide : (init (fun _ _ => true) [] "h" 80).worker.session_ = none).symm.trans h))
      (by decide) (by decide)).1,
    (reconnect_counter (fun _ _ => true) [] "h" 80 [] _
      (init (fun _ _ => true) [] "h" 80).worker []
      (HTTPClient.makeRequestInfo 1 0 ⟨"h", 80, "/"⟩ none none) ⟨5, false⟩ rfl (by decide)
      (fun _ h => Option.noConfusion
        ((by decide : (init (fun _ _ => true) [] "h" 80).worker.session_ = none).symm.trans h))
      (by decide) (by decide)).2.2.2⟩

end HTTPWorker

namespace HTTPWorker

/-! ## The shared queue -/

/-- A callback leaves the queue alone or removes its front request, and a
request removed is handed to `Request` of this worker, idle at that moment. -/
theorem callback_dequeues_front (dns : String → Nat → Bool) (w : HTTPWorker)
    (pending : List RequestInfo) (cb : Callback) (r : Result)
    (h : w.callback dns pending cb = .ok r) :
    r.pending = pending ∨
    ∃ (front : RequestInfo) (idle : HTTPWorker), pending = front :: r.pending ∧
      idle.request_info_ = none ∧ r.worker = (idle.Request dns front).1 := by
  cases cb with
  | connectSuccess session =>
    simp only [callback] at h
    injection h with h
    rw [← h]; exact Or.inl rfl
  | connectError =>
    simp only [callback] at h
    injection h with h
    rw [← h]
    by_cases hlt : w.num_reconnects_ < kMaxReconnects
    · rw [connectError_retry dns w pending hlt]; exact Or.inl rfl
    · rw [connectError_exhausted dns w pending hlt]
      cases pending with
      | nil => exact Or.inl rfl
      | cons front rest =>
        exact Or.inr ⟨front, { w with num_reconnects_ := 0, request_info_ := none }, rfl, rfl,
          rfl⟩
  | detachTransaction =>
    simp only [callback] at h
    injection h with h
    rw [← h]; exact Or.inl rfl
  | onHeadersComplete msg =>
    simp only [callback] at h
    cases hx : w.onHeadersComplete msg with
    | error e => simp [hx] at h
    | ok w1 =>
      simp only [hx] at h
      injection h with h
      rw [← h]; exact Or.inl rfl
  | onBody chain =>
    simp only [callback] at h
    cases hx : w.onBody chain with
    | error e => simp [hx] at h
    | ok w1 =>
      simp only [hx] at h
      injection h with h
      rw [← h]; exact Or.inl rfl
  | onEOM =>
    simp only [callback, onEOM] at h
    cases hi : w.request_info_ with
    | none => simp [hi] at h
    | some info =>
      simp only [hi] at h
      injection h with h
      rw [← h]
      cases pending with
      | nil => exact Or.inl rfl
      | cons front rest =>
        exact Or.inr ⟨front, { w with request_info_ := none }, rfl, rfl, rfl⟩
  | onError error =>
    simp only [callback] at h
    injection h with h
    rw [← h]
    unfold onError
    cases hi : w.request_info_ with
    | none =>
      cases pending with
      | nil => exact Or.inl rfl
      | cons front rest => exact Or.inr ⟨front, w, rfl, hi, rfl⟩
    | some info =>
      cases pending with
      | nil => exact Or.inl rfl
      | cons front rest =>
        exact Or.inr ⟨front, { w with request_info_ := none }, rfl, rfl, rfl⟩

end HTTPWorker

namespace HTTPClient

/-! ## Dispatch -/

theorem dispatch_eq_none (dns : String → Nat → Bool) (info : RequestInfo)
    (pool : List HTTPWorker) (h : ∀ w, w ∈ pool → w.busy = true) :
    dispatch dns info pool = none := by
  induction pool with
  | nil => rfl
  | cons w pool ih =>
    have hw := h w (List.mem_cons_self w pool)
    simp only [dispatch, hw, Bool.not_true, Bool.false_eq_true, if_false]
    rw [ih (fun v hv => h v (List.mem_cons_of_mem w hv))]

theorem dispatch_first_idle (dns : String → Nat → Bool) (info : RequestInfo)
    (pool : List HTTPWorker) :
    ∀ (i : Nat) (w : HTTPWorker), pool[i]? = some w → w.busy = false →
      (∀ j v, j < i → pool[j]? = some v → v.busy = true) →
      dispatch dns info pool
        = some (pool.set i (w.Request dns info).1, (w.Request dns info).2.1) := by
  induction pool with
  | nil => intro i w h; simp at h
  | cons a pool ih =>
    intro i w hi hw hbefore
    cases i with
    | zero =>
      simp only [List.getElem?_cons_zero, Option.some.injEq] at hi
      subst hi
      simp [dispatch, hw]
    | succ i =>
      simp only [List.getElem?_cons_succ] at hi
      have ha : a.busy = true := hbefore 0 a (Nat.succ_pos i) (by simp)
      have hrest := ih i w hi hw (fun j v hj hv => hbefore (j + 1) v (by omega) (by simpa using hv))
      simp only [dispatch, ha, Bool.not_true, Bool.false_eq_true, if_false, hrest, List.set_cons_succ]

end HTTPClient

namespace HTTPClient

/-! ## The stopped latch -/

theorem step_stopped (dns : String → Nat → Bool) (c c1 : HTTPClient) (op : Op)
    (evs : List HttpEvent) (hs : c.stopped_ = true) (h : step dns c op = .ok (c1, evs)) :
    c1.stopped_ = true := by
  cases op with
  | Request task method url headers body =>
    simp only [step, Request, hs, if_true] at h
    injection h with h
    injection h with h1 _
    rw [← h1]; exact hs
  | Shutdown =>
    simp only [step, Shutdown, hs, if_true] at h
    injection h with h
    injection h with h1 _
    rw [← h1]; exact hs
  | callback index cb =>
    simp only [step] at h
    cases hw : c.workers_pool_[index]? with
    | none =>
      simp only [hw] at h
      injection h with h
      injection h with h1 _
      rw [← h1]; exact hs
    | some w =>
      simp only [hw] at h
      cases hc : w.callback dns c.pending_requests_ cb with
      | error e => simp [hc] at h
      | ok r =>
        simp only [hc] at h
        injection h with h
        injection h with h1 _
        rw [← h1]; exact hs

theorem exec_stopped (dns : String → Nat → Bool) (ops : List Op) :
    ∀ (c c1 : HTTPClient) (evs : List HttpEvent), c.stopped_ = true →
      exec dns c ops = .ok (c1, evs) → c1.stopped_ = true := by
  induction ops with
  | nil =>
    intro c c1 evs hs h
    simp only [exec] at h
    injection h with h
    injection h with h1 _
    rw [← h1]; exact hs
  | cons op ops ih =>
    intro c c1 evs hs h
    simp only [exec] at h
    cases hst : step dns c op with
    | error e => simp [hst] at h
    | ok ra =>
      simp only [hst] at h
      cases he : exec dns ra.1 ops with
      | error e => simp [he] at h
      | ok rb =>
        simp only [he] at h
        injection h with h
        injection h with h1 _
        rw [← h1]
        exact ih ra.1 rb.1 rb.2 (step_stopped dns c ra.1 op ra.2 hs hst) he

/-- C13. Stopped latch: from a stopped client no sequence of steps leads to a
client that is not stopped; `Request` settles the new handle with `shutdown`
once and leaves the client (workers and queue included) as it was;
`RequestAndWait` returns `nullptr`; and `Shutdown` changes nothing and settles
nothing. -/
theorem stopped_latch (dns : String → Nat → Bool) (c : HTTPClient) (hs : c.stopped_ = true) :
    (∀ (ops : List Op) (c1 : HTTPClient) (evs : List HttpEvent),
      exec dns c ops = .ok (c1, evs) → c1.stopped_ = true) ∧
    (∀ task method url headers body,
      c.Request dns task method url headers body
        = (c, [HttpEvent.NotifyError task HTTPClient.Error.shutdown])) ∧
    (∀ inEventBaseThread task method url headers body,
      c.RequestAndWait dns inEventBaseThread task method url headers body
        = WaitResult.nullptr) ∧
    c.Shutdown = (c, []) := by
  refine ⟨fun ops c1 evs h => exec_stopped dns ops c c1 evs hs h, ?_, ?_, ?_⟩
  · intro task method url headers body
    simp [Request, hs]
  · intro b task method url headers body
    simp [RequestAndWait, hs]
  · simp [Shutdown, hs]

/-- Witness for C13: a client with one busy worker and one queued request,
shut down. -/
theorem stopped_latch_witness :
    (∀ (ops : List Op) (c1 : HTTPClient) (evs : List HttpEvent),
      exec (fun _ _ => true)
        ((init (fun _ _ => true) "h" 80 1).Request (fun _ _ => true) 1 0 ⟨"h", 80, "/"⟩ none
          none).1.Shutdown.1 ops = .ok (c1, evs) → c1.stopped_ = true) ∧
    (∀ task method url headers body,
      ((init (fun _ _ => true) "h" 80 1).Request (fun _ _ => true) 1 0 ⟨"h", 80, "/"⟩ none
          none).1.Shutdown.1.Request (fun _ _ => true) task method url headers body
        = (((init (fun _ _ => true) "h" 80 1).Request (fun _ _ => true) 1 0 ⟨"h", 80, "/"⟩ none
            none).1.Shutdown.1, [HttpEvent.NotifyError task HTTPClient.Error.shutdown])) ∧
    (∀ inEventBaseThread task method url headers body,
      ((init (fun _ _ => true) "h" 80 1).Request (fun _ _ => true) 1 0 ⟨"h", 80, "/"⟩ none
          none).1.Shutdown.1.RequestAndWait (fun _ _ => true) inEventBaseThread task method url
          headers body = WaitResult.nullptr) ∧
    ((init (fun _ _ => true) "h" 80 1).Request (fun _ _ => true) 1 0 ⟨"h", 80, "/"⟩ none
        none).1.Shutdown.1.Shutdown
      = (((init (fun _ _ => true) "h" 80 1).Request (fun _ _ => true) 1 0 ⟨"h", 80, "/"⟩ none
          none).1.Shutdown.1, []) :=
  stopped_latch (fun _ _ => true)
    ((init (fun _ _ => true) "h" 80 1).Request (fun _ _ => true) 1 0 ⟨"h", 80, "/"⟩ none
      none).1.Shutdown.1 (by decide)

end HTTPClient

namespace HTTPClient

/-! ## Dispatch and queue order -/

/-- Every client step leaves the queue as it is, appends one request at the
back, or removes the request at the front. -/
theorem step_pending_fifo (dns : String → Nat → Bool) (c c1 : HTTPClient) (op : Op)
    (evs : List HttpEvent) (h : step dns c op = .ok (c1, evs)) :
    c1.pending_requests_ = c.pending_requests_ ∨
    (∃ info, c1.pending_requests_ = c.pending_requests_ ++ [info]) ∨
    (∃ front, c.pending_requests_ = front :: c1.pending_requests_) := by
  cases op with
  | Request task method url headers body =>
    simp only [step] at h
    injection h with h
    have h1 : c1 = (c.Request dns task method url headers body).1 := by rw [h]
    rw [h1]
    unfold Request
    by_cases hs : c.stopped_ = true
    · simp [hs]
    · simp only [hs, if_false]
      cases dispatch dns (makeRequestInfo task method url headers body) c.workers_pool_ with
      | some r => exact Or.inl rfl
      | none => exact Or.inr (Or.inl ⟨_, rfl⟩)
  | Shutdown =>
    simp only [step] at h
    injection h with h
    have h1 : c1 = c.Shutdown.1 := by rw [h]
    rw [h1]
    unfold Shutdown
    by_cases hs : c.stopped_ = true <;> simp [hs]
  | callback index cb =>
    simp only [step] at h
    cases hw : c.workers_pool_[index]? with
    | none =>
      simp only [hw] at h
      injection h with h
      injection h with h1 _
      rw [← h1]; exact Or.inl rfl
    | some w =>
      simp only [hw] at h
      cases hc : w.callback dns c.pending_requests_ cb with
      | error e => simp [hc] at h
      | ok r =>
        simp only [hc] at h
        injection h with h
        injection h with h1 _
        rw [← h1]
        rcases HTTPWorker.callback_dequeues_front dns w c.pending_requests_ cb r hc with
          hp | ⟨front, _, hp, _, _⟩
        · exact Or.inl hp
        · exact Or.inr (Or.inr ⟨front, hp⟩)

/-- C14. Dispatch and queue order: on a client that is not stopped, `Request`
hands the new request to the first worker of the pool that is not busy (every
worker before it is busy) and leaves the queue as it is, or, when every worker
is busy, appends the request at the back of the queue and changes no worker. A
callback removes nothing from the queue but its front request, which it hands
to its own worker, idle at that moment; a worker that drops its request (at
`onEOM`, at `onError`, at a `connectError` with the counter exhausted) hands
the front of the queue to its own `Request`; and every client step leaves the queue
unchanged, appends at the back or removes the front, so requests leave the
queue in the order in which they entered it. -/
theorem dispatch_and_queue_order (dns : String → Nat → Bool) (c : HTTPClient)
    (task : http_task_ptr) (method : Nat) (url : URL)
    (headers : Option (List (String × String))) (body : Option IOBuf)
    (hs : c.stopped_ = false) :
    (∀ (i : Nat) (w : HTTPWorker), c.workers_pool_[i]? = some w → w.busy = false →
      (∀ j v, j < i → c.workers_pool_[j]? = some v → v.busy = true) →
      c.Request dns task method url headers body
        = ({ c with workers_pool_ := (c.workers_pool_.set i
              (w.Request dns (makeRequestInfo task method url headers body)).1) },
           (w.Request dns (makeRequestInfo task method url headers body)).2.1)) ∧
    ((∀ w, w ∈ c.workers_pool_ → w.busy = true) →
      c.Request dns task method url headers body
        = ({ c with pending_requests_ :=
              c.pending_requests_ ++ [makeRequestInfo task method url headers body] }, [])) ∧
    (∀ (w : HTTPWorker) (pending : List RequestInfo) (cb : HTTPWorker.Callback)
      (r : HTTPWorker.Result), w.callback dns pending cb = .ok r →
      r.pending = pending ∨
      ∃ (front : RequestInfo) (idle : HTTPWorker), pending = front :: r.pending ∧
        idle.request_info_ = none ∧ r.worker = (idle.Request dns front).1) ∧
    (∀ (w : HTTPWorker) (info front : RequestInfo) (rest : List RequestInfo),
      w.request_info_ = some info →
      (∃ r, w.onEOM dns (front :: rest) = .ok r ∧ r.pending = rest ∧
        r.worker = (({ w with request_info_ := none }).Request dns front).1) ∧
      (∀ error, (w.onError dns (front :: rest) error).pending = rest ∧
        (w.onError dns (front :: rest) error).worker
          = (({ w with request_info_ := none }).Request dns front).1) ∧
      (¬ w.num_reconnects_ < kMaxReconnects →
        (w.connectError dns (front :: rest)).pending = rest ∧
        (w.connectError dns (front :: rest)).worker
          = (({ w with num_reconnects_ := 0, request_info_ := none }).Request dns front).1)) ∧
    (∀ (d : HTTPClient) (op : Op) (d1 : HTTPClient) (evs : List HttpEvent),
      step dns d op = .ok (d1, evs) →
      d1.pending_requests_ = d.pending_requests_ ∨
      (∃ info, d1.pending_requests_ = d.pending_requests_ ++ [info]) ∨
      (∃ front, d.pending_requests_ = front :: d1.pending_requests_)) := by
  refine ⟨fun i w hi hw hb => ?_, fun hall => ?_,
    fun w pending cb r h => HTTPWorker.callback_dequeues_front dns w pending cb r h,
    fun w info front rest hi => ⟨?_, fun error => ?_, fun hx => ?_⟩,
    fun d op d1 evs h => step_pending_fifo dns d d1 op evs h⟩
  · simp only [Request, hs, Bool.false_eq_true, if_false,
      dispatch_first_idle dns _ c.workers_pool_ i w hi hw hb]
  · simp only [Request, hs, Bool.false_eq_true, if_false,
      dispatch_eq_none dns _ c.workers_pool_ hall]
  · have he : w.onEOM dns (front :: rest)
        = .ok { worker := (({ w with request_info_ := none }).Request dns front).1
                pending := rest
                events := HttpEvent.SetResult info.async_task
                    { response := info.response, response_body := info.response_body }
                  :: (({ w with request_info_ := none }).Request dns front).2.1 } := by
      simp only [HTTPWorker.onEOM, hi, HTTPWorker.MaybeProcessNextRequest_cons]
    exact ⟨_, he, rfl, rfl⟩
  · simp only [HTTPWorker.onError, hi]
    exact ⟨rfl, rfl⟩
  · rw [HTTPWorker.connectError_exhausted dns w _ hx]
    exact ⟨rfl, rfl⟩

/-- Witness for C14: a pool of two workers, the first busy. -/
theorem dispatch_and_queue_order_witness :
    ((init (fun _ _ => true) "h" 80 2).Request (fun _ _ => true) 1 0 ⟨"h", 80, "/"⟩ none
        none).1.workers_pool_.map HTTPWorker.busy = [true, false] ∧
    ∀ (w : HTTPWorker),
      ((init (fun _ _ => true) "h" 80 2).Request (fun _ _ => true) 1 0 ⟨"h", 80, "/"⟩ none
        none).1.workers_pool_[1]? = some w → w.busy = false →
      (∀ j v, j < 1 →
        ((init (fun _ _ => true) "h" 80 2).Request (fun _ _ => true) 1 0 ⟨"h", 80, "/"⟩ none
          none).1.workers_pool_[j]? = some v → v.busy = true) →
      ((init (fun _ _ => true) "h" 80 2).Request (fun _ _ => true) 1 0 ⟨"h", 80, "/"⟩ none
          none).1.Request (fun _ _ => true) 2 0 ⟨"h", 80, "/"⟩ none none
        = ({ ((init (fun _ _ => true) "h" 80 2).Request (fun _ _ => true) 1 0 ⟨"h", 80, "/"⟩
                none none).1 with
              workers_pool_ :=
                (((init (fun _ _ => true) "h" 80 2).Request (fun _ _ => true) 1 0
                  ⟨"h", 80, "/"⟩ none none).1.workers_pool_.set 1
                  (w.Request (fun _ _ => true)
                    (makeRequestInfo 2 0 ⟨"h", 80, "/"⟩ none none)).1) },
           (w.Request (fun _ _ => true) (makeRequestInfo 2 0 ⟨"h", 80, "/"⟩ none none)).2.1) :=
  ⟨by decide,
    (dispatch_and_queue_order (fun _ _ => true)
      ((init (fun _ _ => true) "h" 80 2).Request (fun _ _ => true) 1 0 ⟨"h", 80, "/"⟩ none
        none).1 2 0 ⟨"h", 80, "/"⟩ none none (by decide)).1 1⟩

end HTTPClient

namespace HTTPClient

/-! ## Shutdown -/

theorem settlements_destructors (pool : List HTTPWorker) :
    settlements (pool.map HTTPWorker.destructor).flatten = [] := by
  induction pool with
  | nil => rfl
  | cons w pool ih =>
    simp only [List.map_cons, List.flatten_cons, HTTPWorker.settlements_append, ih,
      List.append_nil]
    unfold HTTPWorker.destructor
    cases w.txn_ <;> rfl

theorem settlements_shutdown_queue (pending : List RequestInfo) :
    settlements (pending.map
        (fun request_info =>
          HttpEvent.NotifyError request_info.async_task HTTPClient.Error.shutdown))
      = pending.map (fun request_info => (request_info.async_task, some HTTPClient.Error.shutdown)) := by
  induction pending with
  | nil => rfl
  | cons r pending ih => simp [settlements, ih]

/-- What `Shutdown` settles on a client that is not stopped: the handles of the
queued requests, each once with `shutdown`, and no handle of a request in
flight, although the workers are destroyed. -/
theorem Shutdown_settlements (c : HTTPClient) (hs : c.stopped_ = false) :
    settlements c.Shutdown.2
      = c.pending_requests_.map
          (fun request_info => (request_info.async_task, some HTTPClient.Error.shutdown)) ∧
    c.Shutdown.1.stopped_ = true ∧ c.Shutdown.1.workers_pool_ = [] ∧
    c.Shutdown.1.pending_requests_ = c.pending_requests_ := by
  simp [Shutdown, hs, HTTPWorker.settlements_append, settlements_destructors,
    settlements_shutdown_queue]

/-- C12 fails on the code: with request 1 in flight in the only worker and
request 2 in the queue, `Shutdown` sets the latch and settles handle 2 with
`shutdown`, but the destructor of the worker settles nothing, so handle 1 is
left unsettled and its request is gone with the worker. -/
theorem shutdown_leaves_in_flight_unsettled :
    (exec (fun _ _ => true) (init (fun _ _ => true) "h" 80 1)
        [Op.Request 1 0 ⟨"h", 80, "/"⟩ none none,
          Op.Request 2 0 ⟨"h", 80, "/"⟩ none none]).toOption.map
      (fun r => (r.1.workers_pool_.map (fun w => w.request_info_.map (fun i => i.async_task)),
        r.1.pending_requests_.map (fun i => i.async_task)))
      = some ([some 1], [2]) ∧
    (exec (fun _ _ => true) (init (fun _ _ => true) "h" 80 1)
        [Op.Request 1 0 ⟨"h", 80, "/"⟩ none none,
          Op.Request 2 0 ⟨"h", 80, "/"⟩ none none]).toOption.map
      (fun r => (r.1.stopped_, settlements r.2))
      = some (false, []) ∧
    (exec (fun _ _ => true) (init (fun _ _ => true) "h" 80 1)
        [Op.Request 1 0 ⟨"h", 80, "/"⟩ none none,
          Op.Request 2 0 ⟨"h", 80, "/"⟩ none none, Op.Shutdown]).toOption.map
      (fun r => (r.1.stopped_, settlements r.2))
      = some (true, [(2, some HTTPClient.Error.shutdown)]) := by
  decide

/-! ## An idle worker beside a backlog -/

/-- C20 fails on the code: one worker, request 1 in flight, requests 2 (host
`bad`, which does not resolve) and 3 queued. When request 1 completes, the
worker takes request 2 from the queue, fails it with `resolution` and stops
there: it is idle while request 3 is still queued. A new request 4 is then
handed to the idle worker ahead of request 3. -/
theorem idle_worker_beside_backlog :
    (exec (fun host _ => decide (host ≠ "bad"))
        (init (fun host _ => decide (host ≠ "bad")) "good" 80 1)
        [Op.Request 1 0 ⟨"good", 80, "/"⟩ none none,
          Op.Request 2 0 ⟨"bad", 80, "/"⟩ none none,
          Op.Request 3 0 ⟨"good", 80, "/"⟩ none none,
          Op.callback 0 (HTTPWorker.Callback.connectSuccess ⟨0, false⟩),
          Op.callback 0 HTTPWorker.Callback.onEOM]).toOption.map
      (fun r => (r.1.pending_requests_.map (fun i => i.async_task),
        r.1.workers_pool_.map HTTPWorker.busy, settlements r.2))
      = some ([3], [false], [(1, none), (2, some HTTPClient.Error.resolution)]) ∧
    (exec (fun host _ => decide (host ≠ "bad"))
        (init (fun host _ => decide (host ≠ "bad")) "good" 80 1)
        [Op.Request 1 0 ⟨"good", 80, "/"⟩ none none,
          Op.Request 2 0 ⟨"bad", 80, "/"⟩ none none,
          Op.Request 3 0 ⟨"good", 80, "/"⟩ none none,
          Op.callback 0 (HTTPWorker.Callback.connectSuccess ⟨0, false⟩),
          Op.callback 0 HTTPWorker.Callback.onEOM,
          Op.Request 4 0 ⟨"good", 80, "/"⟩ none none]).toOption.map
      (fun r => (r.1.pending_requests_.map (fun i => i.async_task),
        r.1.workers_pool_.map (fun w => w.request_info_.map (fun i => i.async_task))))
      = some ([3], [some 4]) := by
  decide

end HTTPClient

namespace HTTPWorker

/-- Witness for C15: a second request offered to a worker that is connecting
for its first. -/
theorem busy_worker_refuses_witness :
    ((init (fun _ _ => true) [] "h" 80).worker.Request (fun _ _ => true)
        (HTTPClient.makeRequestInfo 1 0 ⟨"h", 80, "/"⟩ none none)).1.Request (fun _ _ => true)
        (HTTPClient.makeRequestInfo 2 0 ⟨"h", 80, "/"⟩ none none)
      = (((init (fun _ _ => true) [] "h" 80).worker.Request (fun _ _ => true)
            (HTTPClient.makeRequestInfo 1 0 ⟨"h", 80, "/"⟩ none none)).1,
          [HttpEvent.NotifyError 2 HTTPClient.Error.internal], false) :=
  (busy_worker_refuses (fun _ _ => true)
    ((init (fun _ _ => true) [] "h" 80).worker.Request (fun _ _ => true)
      (HTTPClient.makeRequestInfo 1 0 ⟨"h", 80, "/"⟩ none none)).1 []
    (HTTPClient.makeRequestInfo 2 0 ⟨"h", 80, "/"⟩ none none)
    (HTTPClient.makeRequestInfo 1 0 ⟨"h", 80, "/"⟩ none none) (by decide)).1

end HTTPWorker

namespace HTTPClient

/-! ## The backlog invariant when every host resolves -/

theorem Request_busy_of_resolving (dns : String → Nat → Bool) (hdns : ∀ h p, dns h p = true)
    (w : HTTPWorker) (info : RequestInfo) : (w.Request dns info).1.busy = true := by
  cases hi : w.request_info_ with
  | some current =>
    rw [HTTPWorker.Request_of_busy dns w info current hi]
    simp [HTTPWorker.busy, hi]
  | none =>
    obtain ⟨v, _, _, _, hc⟩ := HTTPWorker.Request_idle_cases dns w info hi
    rcases hc with ⟨hf, _⟩ | ⟨s, _, _, hc⟩ | ⟨_, hc⟩
    · rw [hdns] at hf; cases hf
    · rw [hc]; simp [HTTPWorker.busy, HTTPWorker.SendRequest]
    · rw [hc]; simp [HTTPWorker.busy]

theorem dispatch_none_all_busy (dns : String → Nat → Bool) (info : RequestInfo)
    (pool : List HTTPWorker) (h : dispatch dns info pool = none) :
    ∀ w, w ∈ pool → w.busy = true := by
  induction pool with
  | nil => intro w hw; cases hw
  | cons a pool ih =>
    cases ha : a.busy with
    | false => simp [dispatch, ha] at h
    | true =>
      simp only [dispatch, ha, Bool.not_true, Bool.false_eq_true, if_false] at h
      cases hd : dispatch dns info pool with
      | some r => simp [hd] at h
      | none =>
        intro w hw
        rcases List.mem_cons.1 hw with rfl | hw
        · exact ha
        · exact ih hd w hw

/-- A callback keeps "a backlog means this worker is busy" when every host
resolves, and never turns an empty queue into a backlog. -/
theorem callback_keeps_backlog (dns : String → Nat → Bool) (hdns : ∀ h p, dns h p = true)
    (w : HTTPWorker) (pending : List RequestInfo) (cb : HTTPWorker.Callback)
    (r : HTTPWorker.Result) (h : w.callback dns pending cb = .ok r)
    (hinv : pending ≠ [] → w.busy = true) :
    (r.pending ≠ [] → r.worker.busy = true) ∧ (r.pending ≠ [] → pending ≠ []) := by
  have htail : ∀ (v : HTTPWorker),
      ((v.MaybeProcessNextRequest dns pending).1.pending ≠ [] →
        (v.MaybeProcessNextRequest dns pending).1.worker.busy = true) ∧
      ((v.MaybeProcessNextRequest dns pending).1.pending ≠ [] → pending ≠ []) := by
    intro v
    cases pending with
    | nil => exact ⟨fun hx => absurd rfl hx, fun hx => absurd rfl hx⟩
    | cons front rest =>
      exact ⟨fun _ => Request_busy_of_resolving dns hdns v front, fun _ => List.cons_ne_nil _ _⟩
  cases cb with
  | connectSuccess session =>
    simp only [HTTPWorker.callback] at h
    injection h with h
    rw [← h]
    refine ⟨fun hp => ?_, fun hp => hp⟩
    have hb := hinv hp
    unfold HTTPWorker.connectSuccess
    cases hi : w.request_info_ with
    | none => simp [HTTPWorker.busy, hi] at hb
    | some info => simp [HTTPWorker.busy, HTTPWorker.SendRequest]
  | connectError =>
    simp only [HTTPWorker.callback] at h
    injection h with h
    rw [← h]
    by_cases hlt : w.num_reconnects_ < kMaxReconnects
    · rw [HTTPWorker.connectError_retry dns w pending hlt]
      exact ⟨fun hp => hinv hp, fun hp => hp⟩
    · rw [HTTPWorker.connectError_exhausted dns w pending hlt]
      exact htail _
  | detachTransaction =>
    simp only [HTTPWorker.callback] at h
    injection h with h
    rw [← h]
    exact ⟨fun hp => hinv hp, fun hp => hp⟩
  | onHeadersComplete msg =>
    simp only [HTTPWorker.callback, HTTPWorker.onHeadersComplete] at h
    cases hi : w.request_info_ with
    | none => simp [hi] at h
    | some info =>
      simp only [hi] at h
      injection h with h
      rw [← h]
      exact ⟨fun _ => rfl, fun hp => hp⟩
  | onBody chain =>
    simp only [HTTPWorker.callback, HTTPWorker.onBody] at h
    cases hi : w.request_info_ with
    | none => simp [hi] at h
    | some info =>
      simp only [hi] at h
      cases hb : info.response_body with
      | none =>
        simp only [hb] at h
        injection h with h
        rw [← h]
        exact ⟨fun _ => rfl, fun hp => hp⟩
      | some b =>
        simp only [hb] at h
        injection h with h
        rw [← h]
        exact ⟨fun _ => rfl, fun hp => hp⟩
  | onEOM =>
    simp only [HTTPWorker.callback, HTTPWorker.onEOM] at h
    cases hi : w.request_info_ with
    | none => simp [hi] at h
    | some info =>
      simp only [hi] at h
      injection h with h
      rw [← h]
      exact htail _
  | onError error =>
    simp only [HTTPWorker.callback] at h
    injection h with h
    rw [← h]
    unfold HTTPWorker.onError
    cases hi : w.request_info_ with
    | none => exact htail _
    | some info => exact htail _

/-- The invariant of C20 where the code has it: when every host resolves, each
client step keeps "a non-empty queue means every worker is busy". -/
theorem step_keeps_backlog (dns : String → Nat → Bool) (hdns : ∀ h p, dns h p = true)
    (c c1 : HTTPClient) (op : Op) (evs : List HttpEvent)
    (hinv : c.pending_requests_ ≠ [] → ∀ w, w ∈ c.workers_pool_ → w.busy = true)
    (h : step dns c op = .ok (c1, evs)) :
    c1.pending_requests_ ≠ [] → ∀ w, w ∈ c1.workers_pool_ → w.busy = true := by
  cases op with
  | Request task method url headers body =>
    simp only [step] at h
    injection h with h
    have h1 : c1 = (c.Request dns task method url headers body).1 := by rw [h]
    rw [h1]
    unfold Request
    by_cases hs : c.stopped_ = true
    · simpa [hs] using hinv
    · simp only [hs, if_false]
      cases hd : dispatch dns (makeRequestInfo task method url headers body)
          c.workers_pool_ with
      | some r =>
        intro hp
        have := dispatch_eq_none dns (makeRequestInfo task method url headers body)
          c.workers_pool_ (hinv hp)
        rw [hd] at this
        cases this
      | none => exact fun _ => dispatch_none_all_busy dns _ _ hd
  | Shutdown =>
    simp only [step] at h
    injection h with h
    have h1 : c1 = c.Shutdown.1 := by rw [h]
    rw [h1]
    unfold Shutdown
    by_cases hs : c.stopped_ = true
    · simpa [hs] using hinv
    · simp [hs]
  | callback index cb =>
    simp only [step] at h
    cases hw : c.workers_pool_[index]? with
    | none =>
      simp only [hw] at h
      injection h with h
      injection h with h1 _
      rw [← h1]; exact hinv
    | some w =>
      simp only [hw] at h
      cases hc : w.callback dns c.pending_requests_ cb with
      | error e => simp [hc] at h
      | ok r =>
        simp only [hc] at h
        injection h with h
        injection h with h1 _
        rw [← h1]
        have hmem : w ∈ c.workers_pool_ := List.getElem?_mem hw
        obtain ⟨k1, k2⟩ := callback_keeps_backlog dns hdns w c.pending_requests_ cb r hc
          (fun hp => hinv hp w hmem)
        intro hp v hv
        rcases List.mem_or_eq_of_mem_set hv with hv | hv
        · exact hinv (k2 hp) v hv
        · rw [hv]; exact k1 hp

end HTTPClient
